import Mathlib

/-!
Verification of the markdown-table extraction and normalization core of the
Capstone portfolio dashboard (`src/pages/agentic_rag.py`).

The two functions under study are `extract_markdown_table` (splits an LLM
answer into pipe-delimited table lines and surrounding prose) and
`parse_portfolio_table` (strips decorative dash rows, reads the block as a
pipe-separated table, drops auto-generated edge columns, locates the weight
column by name heuristics, coerces it to numbers and drops rows that fail).

Text is modelled as `List Char`; Python string operations (`splitlines`,
`strip`, `split`, substring membership) are defined below following Python
semantics.  The call `pd.read_csv(StringIO(s), sep="|", skipinitialspace=True)`
is modelled by `readCsv`: lines are split on `'|'`, spaces following a
delimiter are skipped, the first line names the columns (empty header cells
become `Unnamed: k`, duplicated names are freshened with `.k` suffixes),
short rows are padded with missing values, and a row with more fields than
the header raises a tokenizer error (modelled as `none`).  CSV quote handling,
exotic unicode whitespace/digits and numeric-dtype round-tripping are outside
the model; the theorems below only quantify over inputs on which the model
agrees with the library (plain unquoted cells), and numeric round-tripping
through `astype(str)` preserves the values the claims inspect.
-/

namespace Capstone

/-- One line (or any piece) of text, as a list of characters. -/
abbrev Line := List Char

/-- Whitespace characters stripped by Python `str.strip()` (ASCII range). -/
def isSpaceC (c : Char) : Bool :=
  c = ' ' || c = '\t' || c = '\n' || c = '\x0d' || c = '\x0b' || c = '\x0c'

/-- Drop leading characters satisfying `p` from the end of the list. -/
def dropTrailing (p : Char → Bool) (l : Line) : Line :=
  (l.reverse.dropWhile p).reverse

/-- Python `str.strip()`: remove leading and trailing whitespace. -/
def pyStrip (l : Line) : Line :=
  dropTrailing isSpaceC (l.dropWhile isSpaceC)

/-- `skipinitialspace` of the pandas reader: drop leading space characters. -/
def skipInit (l : Line) : Line :=
  l.dropWhile (fun c => c = ' ')

/-- Does the line contain a `'|'`?  (Python `"|" in line`.) -/
def hasPipe (l : Line) : Bool :=
  l.any (fun c => c = '|')

/-- Python `line.strip() == ""`. -/
def isBlank (l : Line) : Bool :=
  l.all isSpaceC

/-- Python `str.splitlines` (newline conventions `\n`, `\r`, `\r\n`);
a trailing line terminator does not produce a final empty line. -/
def splitlinesAux : Line → Line → List Line
  | [], acc => [acc.reverse]
  | '\n' :: rest, acc =>
    acc.reverse :: (if rest.isEmpty then [] else splitlinesAux rest [])
  | '\x0d' :: '\n' :: rest, acc =>
    acc.reverse :: (if rest.isEmpty then [] else splitlinesAux rest [])
  | '\x0d' :: rest, acc =>
    acc.reverse :: (if rest.isEmpty then [] else splitlinesAux rest [])
  | c :: rest, acc => splitlinesAux rest (c :: acc)

def splitlines (l : Line) : List Line :=
  if l.isEmpty then [] else splitlinesAux l []

/-- `"\n".join lines`. -/
def joinLines : List Line → Line
  | [] => []
  | [l] => l
  | l :: ls => l ++ '\n' :: joinLines ls

/-- First occurrence of `sep` in `s`: `some (before, after)`, or `none` when
`sep` does not occur as a substring. -/
def splitFirst (sep : Line) : Line → Option (Line × Line)
  | [] => if sep.isEmpty then some ([], []) else none
  | c :: rest =>
    if sep.isPrefixOf (c :: rest) then some ([], (c :: rest).drop sep.length)
    else
      match splitFirst sep rest with
      | none => none
      | some (a, b) => some (c :: a, b)

/-- Python `s.split(sep)[0]`. -/
def pySplitHead (sep s : Line) : Line :=
  match splitFirst sep s with
  | none => s
  | some (a, _) => a

/-- Python `s.split(sep)[1]` (text between the first and the second
occurrence, or after the single occurrence). Only used when `sep in s`. -/
def pySplitSecond (sep s : Line) : Line :=
  match splitFirst sep s with
  | none => []
  | some (_, b) =>
    match splitFirst sep b with
    | none => b
    | some (c, _) => c

/-- The accumulation loop of `extract_markdown_table`: append every line
containing `'|'`; once any such line has been seen (`inT`), stop at the
first blank line. -/
def tableLinesLoop : List Line → Bool → List Line
  | [], _ => []
  | l :: ls, inT =>
    if hasPipe l then l :: tableLinesLoop ls true
    else if inT && isBlank l then []
    else tableLinesLoop ls inT

/-- `extract_markdown_table(answer)` from `src/pages/agentic_rag.py`:
returns `(table_md?, prose)`.  When a block is found, the prose is
`pre.strip() + "\n\n" + post.strip()` where `pre`/`post` come from
`answer.split(table_md)` (and `post` is `""` unless `table_md in answer`). -/
def extract_markdown_table (answer : Line) : Option Line × Line :=
  let lines := splitlines answer
  let table_lines := tableLinesLoop lines false
  match table_lines with
  | [] => (none, answer)
  | _ =>
    let table_md := joinLines table_lines
    let pre := pyStrip (pySplitHead table_md answer)
    let post :=
      if (splitFirst table_md answer).isSome then
        pyStrip (pySplitSecond table_md answer)
      else []
    (some table_md, pre ++ '\n' :: '\n' :: post)

/-! ### The normalization model -/

/-- A cell of the parsed table: missing, a string, or a number
(finite rational, or one of the IEEE infinities). -/
inductive Cell where
  | na : Cell
  | str : Line → Cell
  | num : ℚ → Cell
  | pinf : Cell
  | ninf : Cell
deriving DecidableEq

/-- Result of Python float conversion. -/
inductive PyNum where
  | fin : ℚ → PyNum
  | pinf : PyNum
  | ninf : PyNum
  | nan : PyNum
deriving DecidableEq

def cellOfNum : PyNum → Cell
  | .fin q => .num q
  | .pinf => .pinf
  | .ninf => .ninf
  | .nan => .na

/-- A data frame: column names and rows of cells (rows aligned with `cols`). -/
structure Df where
  cols : List Line
  rows : List (List Cell)
deriving DecidableEq

/-- Is the whole line, after deleting `'|'` and `' '` characters, made of
dashes only (including the empty case)?  This is
`set(line.replace('|','').replace(' ','')) <= {'-'}`. -/
def decorative (l : Line) : Bool :=
  (l.filter (fun c => !(c = '|' || c = ' '))).all (fun c => c = '-')

/-- Digit characters `'0'..'9'`. -/
def digitChar : ℕ → Char
  | 0 => '0' | 1 => '1' | 2 => '2' | 3 => '3' | 4 => '4'
  | 5 => '5' | 6 => '6' | 7 => '7' | 8 => '8' | _ => '9'

def digitVal (c : Char) : ℕ := c.toNat - 48

/-- Decimal digits of `n`, most significant first (fuel-driven so that the
kernel can evaluate it; the fuel `n + 1` always suffices). -/
def natDigsAux : ℕ → ℕ → List Char
  | 0, _ => []
  | fuel + 1, n =>
    if n < 10 then [digitChar n]
    else natDigsAux fuel (n / 10) ++ [digitChar (n % 10)]

def natDigs (n : ℕ) : List Char :=
  natDigsAux (n + 1) n

/-- Value of a digit string. -/
def natOfDigits (l : Line) : ℕ :=
  l.foldl (fun a c => 10 * a + digitVal c) 0

/-- `f"Unnamed: {i}"`. -/
def unnamedName (i : ℕ) : Line :=
  'U' :: 'n' :: 'n' :: 'a' :: 'm' :: 'e' :: 'd' :: ':' :: ' ' :: natDigs i

def unnamedHead : Line := ['U', 'n', 'n', 'a', 'm', 'e', 'd']

/-- Split a line on a separator character (`"a|b"` gives `["a", "b"]`,
`"|"` gives `["", ""]`). -/
def splitChar (sep : Char) : Line → List Line
  | [] => [[]]
  | c :: rest =>
    if c = sep then [] :: splitChar sep rest
    else
      match splitChar sep rest with
      | [] => [[c]]
      | f :: fs => (c :: f) :: fs

/-- Fields of one line for the reader: split on `'|'`; spaces directly after
each delimiter are skipped (`skipinitialspace=True`). -/
def fieldsOf (l : Line) : List Line :=
  match splitChar '|' l with
  | [] => []
  | f :: fs => f :: fs.map skipInit

/-- Header naming: an empty header field at position `i` becomes
`Unnamed: i`. -/
def assignNames : ℕ → List Line → List Line
  | _, [] => []
  | i, f :: fs =>
    (if f.isEmpty then unnamedName i else f) :: assignNames (i + 1) fs

/-- Pick a fresh `.k`-suffixed variant of a duplicated column name. -/
def freshName (f : Line) (seen : List Line) : ℕ → ℕ → Line
  | 0, _ => f
  | fuel + 1, k =>
    let cand := f ++ '.' :: natDigs k
    if cand ∈ seen then freshName f seen fuel (k + 1) else cand

/-- Freshen duplicated column names left to right (pandas name mangling;
collision resolution of pathological headers is approximated). -/
def dedupNames (seen : List Line) : List Line → List Line
  | [] => []
  | f :: fs =>
    let f' := if f ∈ seen then freshName f seen (seen.length + 1) 1 else f
    f' :: dedupNames (f' :: seen) fs

/-- A raw field value: the empty field reads as missing. -/
def toCell (f : Line) : Cell :=
  if f.isEmpty then .na else .str f

/-- Pad a row with missing values up to the column count. -/
def padTo (n : ℕ) (r : List Cell) : List Cell :=
  r ++ List.replicate (n - r.length) Cell.na

/-- Model of `pd.read_csv(StringIO("\n".join(ls)), sep="|",
skipinitialspace=True)`: `none` models a raised `EmptyDataError` /
`ParserError` (a data row with more fields than the header). -/
def readCsv (ls : List Line) : Option Df :=
  match ls with
  | [] => none
  | h :: rest =>
    let names := dedupNames [] (assignNames 0 (fieldsOf h))
    let rawRows := rest.map fieldsOf
    if rawRows.any (fun r => names.length < r.length) then none
    else some ⟨names, rawRows.map (fun r => padTo names.length (r.map toCell))⟩

/-- Keep the elements of `l` whose flag in `keep` is `true`. -/
def maskList : List Bool → List Cell → List Cell
  | b :: bs, x :: xs => if b then x :: maskList bs xs else maskList bs xs
  | _, _ => []

/-- `df.loc[:, ~df.columns.str.contains('^Unnamed')]`: drop every column
whose name starts with `Unnamed`, together with its cells. -/
def dropUnnamed (df : Df) : Df :=
  let keep := df.cols.map (fun c => !(unnamedHead.isPrefixOf c))
  ⟨df.cols.filter (fun c => !(unnamedHead.isPrefixOf c)),
   df.rows.map (fun r => maskList keep r)⟩

/-- ASCII lower-casing (Python `str.lower()`; identity outside `A`–`Z`,
which is all the keyword search needs). -/
def lowerC (c : Char) : Char :=
  if 'A' ≤ c && c ≤ 'Z' then Char.ofNat (c.toNat + 32) else c

def lowerList (l : Line) : Line :=
  l.map lowerC

/-- Substring membership (Python `sub in s`). -/
def containsSub (pat : Line) : Line → Bool
  | [] => pat.isEmpty
  | c :: rest => pat.isPrefixOf (c :: rest) || containsSub pat rest

def keyWeight : Line := ['w', 'e', 'i', 'g', 'h', 't']
def keyBi : Line := ['비', '중']
def keyRatio : Line := ['r', 'a', 't', 'i', 'o']

/-- Does a column name case-insensitively contain one of the recognized
weight-column substrings? -/
def hasKeyword (c : Line) : Bool :=
  containsSub keyWeight (lowerList c) || containsSub keyBi (lowerList c) ||
    containsSub keyRatio (lowerList c)

def findWeightIdxAux : ℕ → List Line → Option ℕ
  | _, [] => none
  | i, c :: cs => if hasKeyword c then some i else findWeightIdxAux (i + 1) cs

/-- Index of the first column whose name contains a weight keyword. -/
def findWeightIdx (cols : List Line) : Option ℕ :=
  findWeightIdxAux 0 cols

/-! #### Numeric coercion (`pd.to_numeric(..., errors='coerce')`) -/

def isDigitC (c : Char) : Bool := '0' ≤ c && c ≤ '9'

def infLower : Line := ['i', 'n', 'f']
def infinityLower : Line := ['i', 'n', 'f', 'i', 'n', 'i', 't', 'y']
def nanLower : Line := ['n', 'a', 'n']

def digitsToRat (ip fp : Line) : ℚ :=
  (natOfDigits ip : ℚ) + (natOfDigits fp : ℚ) / (10 : ℚ) ^ fp.length

def expDigits (r : Line) (base : ℚ) (negExp : Bool) : Option ℚ :=
  if r.isEmpty || !(r.all isDigitC) then none
  else some (if negExp then base / (10 : ℚ) ^ natOfDigits r
             else base * (10 : ℚ) ^ natOfDigits r)

def parseExp (r : Line) (base : ℚ) : Option ℚ :=
  match r with
  | [] => none
  | c :: r2 =>
    if c = '+' then expDigits r2 base false
    else if c = '-' then expDigits r2 base true
    else expDigits r base false

def expTail (r : Line) (base : ℚ) : Option ℚ :=
  match r with
  | [] => some base
  | c :: r2 => if c = 'e' || c = 'E' then parseExp r2 base else none

/-- Unsigned decimal literal: `digits`, `digits.digits?`, `.digits`, each
with an optional exponent. -/
def parseDec (t : Line) : Option ℚ :=
  let ip := t.takeWhile isDigitC
  let r1 := t.dropWhile isDigitC
  match r1 with
  | [] => if ip.isEmpty then none else some (natOfDigits ip : ℚ)
  | c :: r2 =>
    if c = '.' then
      let fp := r2.takeWhile isDigitC
      let r3 := r2.dropWhile isDigitC
      if ip.isEmpty && fp.isEmpty then none else expTail r3 (digitsToRat ip fp)
    else if c = 'e' || c = 'E' then
      if ip.isEmpty then none else parseExp r2 (natOfDigits ip : ℚ)
    else none

def parseUnsigned (t : Line) (neg : Bool) : Option PyNum :=
  if lowerList t = infLower || lowerList t = infinityLower then
    some (if neg then .ninf else .pinf)
  else if lowerList t = nanLower then some .nan
  else (parseDec t).map (fun q => .fin (if neg then -q else q))

/-- Python float conversion of a string (`none` when the string is not a
valid float literal). -/
def parseNum (s : Line) : Option PyNum :=
  match pyStrip s with
  | [] => none
  | c :: rest =>
    if c = '+' then parseUnsigned rest false
    else if c = '-' then parseUnsigned rest true
    else parseUnsigned (c :: rest) false

/-- `str(cell)` for the cells the weight column can hold before coercion. -/
def astypeStr : Cell → Line
  | .na => nanLower
  | .str s => s
  | .num _ => nanLower
  | .pinf => infLower
  | .ninf => '-' :: infLower

/-- One weight cell through
`.astype(str).str.replace('%','').str.replace(',','')` followed by
`pd.to_numeric(..., errors='coerce')`. -/
def coerceCell (c : Cell) : PyNum :=
  match parseNum ((astypeStr c).filter (fun ch => !(ch = '%' || ch = ','))) with
  | none => .nan
  | some v => v

/-- Coerce the weight column and drop the rows whose weight is missing
(`dropna(subset=[weight_col])`). -/
def applyCoerce (w : ℕ) (rows : List (List Cell)) : List (List Cell) :=
  rows.filterMap (fun r =>
    match coerceCell (r.getD w Cell.na) with
    | .nan => none
    | v => some (r.set w (cellOfNum v)))

/-- The decorative-row stripping and line split of `parse_portfolio_table`. -/
def cleanOf (b : Line) : List Line :=
  (splitlines (pyStrip b)).filter (fun l => !(decorative l))

/-- `parse_portfolio_table(table_md)` from `src/pages/agentic_rag.py`.
`none` models every `return None` path, including the `except` clause
(tokenizer errors, and the `AttributeError` raised by the `.str` accessor
when the weight label is duplicated after trimming). -/
def parse_portfolio_table (b : Line) : Option Df :=
  match readCsv (cleanOf b) with
  | none => none
  | some df0 =>
    let df1 := dropUnnamed df0
    let cols2 := df1.cols.map pyStrip
    match findWeightIdx cols2 with
    | none => none
    | some w =>
      if 2 ≤ (cols2.filter (fun c => c = cols2.getD w [])).length then none
      else some ⟨cols2, applyCoerce w df1.rows⟩

/-! ### Concrete inputs used by the claims -/

/-- The concrete scenario text of the specification (§8). -/
def c1Text : Line :=
  ("Here is your plan.\n\n| Name | Ticker | Weight | Country |\n|------|--------|--------|---------|\n| Apple | AAPL | 40% | US |\n| Samsung | 005930.KS | 35% | KR |\n| Cash | - | bad | - |\n\nRisk notes follow.").data

/-- The table block of the concrete scenario: header, dash row, three data
rows (every line containing a `'|'`). -/
def c1Block : Line :=
  ("| Name | Ticker | Weight | Country |\n|------|--------|--------|---------|\n| Apple | AAPL | 40% | US |\n| Samsung | 005930.KS | 35% | KR |\n| Cash | - | bad | - |").data

def c1Prose : Line := ("Here is your plan.\n\nRisk notes follow.").data

/-- Block whose only data row has an unparseable weight cell. -/
def c2Cex : Line := ("| Name | Weight |\n| x | bad |").data

/-- Text whose pipe lines are interrupted by a plain prose line. -/
def c3Cex : Line := ("| a |\nx\n| b |").data

/-- Block whose weight cell parses as an IEEE infinity. -/
def c6Cex : Line := ("| A | Weight |\n| x | inf |").data

/-- Block containing a data row of entirely blank cells. -/
def c10Block : Line := ("| Name | Weight |\n|  |  |\n| x | 40 |").data

def c10BlankRow : Line := ("|  |  |").data

/-! ### Serialized markdown tables

To quantify over well-formed markdown table blocks, tables are built from a
list of header names and a list of cell rows: every line is
`"|" ++ cell ++ "|" ++ cell ++ ... ++ "|"`. -/

/-- `"|".join cells`. -/
def joinBar : List Line → Line
  | [] => []
  | [c] => c
  | c :: cs => c ++ '|' :: joinBar cs

/-- One markdown table line from its cells. -/
def mkLine (cells : List Line) : Line :=
  '|' :: (joinBar cells ++ ['|'])

/-- The markdown dash separator row with `n` columns (`|---|---|`). -/
def mkDash (n : ℕ) : Line :=
  mkLine (List.replicate n ['-', '-', '-'])

/-- A serialized table block: header line, optional dash row, data lines. -/
def serializeTable (withDash : Bool) (names : List Line)
    (rows : List (List Line)) : Line :=
  joinLines (mkLine names ::
    ((if withDash then [mkDash names.length] else []) ++ rows.map mkLine))

/-- Characters that a plain table cell may not contain: the field separator,
the CSV quote character (quote handling is not modelled), and every
line-break character recognized by Python `splitlines`. -/
def charSafe (c : Char) : Bool :=
  !(c = '|' || c = '"' || c = '\n' || c = '\x0d' || c = '\x0b' ||
    c = '\x0c' || c = '\x1c' || c = '\x1d' || c = '\x1e' || c = '\x85' ||
    c = '\u2028' || c = '\u2029')

def lineSafe (l : Line) : Bool := l.all charSafe

/-- Some cell of the row has a character that is neither a dash nor
whitespace, so the serialized row is not a decorative row and survives
stripping after any amount of trimming. -/
def rowHasContent (r : List Line) : Bool :=
  r.any (fun cell => cell.any (fun ch => !(ch = '-' || isSpaceC ch)))

/-- The column name is not empty after trimming and does not begin with the
`Unnamed` marker (neither as read nor after trimming). -/
def unnamedClean (nm : Line) : Bool :=
  !(unnamedHead.isPrefixOf (skipInit nm)) &&
    !(unnamedHead.isPrefixOf (pyStrip nm))

/-- The value a raw cell string takes in the frame: the reader skips the
spaces following the delimiter and reads an empty field as missing. -/
def strCellOf (c : Line) : Cell :=
  toCell (skipInit c)

/-- Numeric coercion of a raw cell string, as the weight column undergoes
it. -/
def coerceStr (c : Line) : PyNum :=
  coerceCell (strCellOf c)

/-- What becomes of one data row: dropped when its weight cell coerces to
missing, otherwise kept with the weight cell replaced by the number. -/
def coRow (w : ℕ) (r : List Line) : Option (List Cell) :=
  match coerceStr (r.getD w []) with
  | .nan => none
  | v => some ((r.map strCellOf).set w (cellOfNum v))

/-- Well-formedness of a serialized table: plain cells, nonempty distinct
header names that do not collide with the `Unnamed` markers, the weight
column sits at `wIdx` (first name containing a keyword), and every row has
one cell per column with some non-decorative content. -/
def TableOK (names : List Line) (rows : List (List Line)) (wIdx : ℕ) : Prop :=
  (∀ nm ∈ names, lineSafe nm = true) ∧
  (∀ nm ∈ names, pyStrip nm ≠ []) ∧
  (∀ nm ∈ names, unnamedClean nm = true) ∧
  (names.map skipInit).Pairwise (fun a b => a ≠ b) ∧
  (names.map pyStrip).Pairwise (fun a b => a ≠ b) ∧
  wIdx < names.length ∧
  hasKeyword (pyStrip (names.getD wIdx [])) = true ∧
  (∀ j, j < wIdx → hasKeyword (pyStrip (names.getD j [])) = false) ∧
  rowHasContent names = true ∧
  (∀ r ∈ rows, r.length = names.length ∧ (∀ c ∈ r, lineSafe c = true) ∧
    rowHasContent r = true)

/-- A clean percentage cell: one or more digits followed by `%`. -/
def isPercentCell (c : Line) : Bool :=
  !c.dropLast.isEmpty && c.dropLast.all isDigitC && (c.getLast? = some '%')

/-- Numeric value of a clean percentage cell (`"45%"` gives `45`). -/
def pctVal (c : Line) : ℚ :=
  (natOfDigits c.dropLast : ℚ)

/-- Least exponent `k` (searched up to `d`) with `d ∣ 10^k`, when one
exists. Every weight the numeric coercion can produce has a denominator
dividing a power of ten, so on those the search always succeeds. -/
def pow10Exp (d : ℕ) : Option ℕ :=
  (List.range (d + 1)).find? (fun k => decide (d ∣ 10 ^ k))

/-- The digit string of `m` padded with leading zeros to at least `k + 1`
digits, so that a decimal point can be placed `k` digits from the right. -/
def decPad (m k : ℕ) : Line :=
  List.replicate (k + 1 - (natDigs m).length) '0' ++ natDigs m

/-- `m / 10^k` written as an exact decimal: the padded digits of `m` with a
decimal point inserted `k` digits from the right (`decSplit 45 1 = "4.5"`,
`decSplit 5 2 = "0.05"`). -/
def decSplit (m k : ℕ) : Line :=
  (decPad m k).take ((decPad m k).length - k) ++
    '.' :: (decPad m k).drop ((decPad m k).length - k)

/-- Exact decimal string of a nonnegative rational whose denominator divides
a power of ten (the only numeric values the coercion produces): plain digits
for an integer, digits-point-digits otherwise, as Python `str()` prints the
corresponding float. -/
def decReprNN (q : ℚ) : Line :=
  if (pow10Exp q.den).getD 0 = 0 then natDigs q.num.toNat
  else decSplit (q.num.toNat * (10 ^ (pow10Exp q.den).getD 0 / q.den))
    ((pow10Exp q.den).getD 0)

/-- Exact decimal string of a rational weight, with a leading minus sign
when negative. -/
def decRepr (q : ℚ) : Line :=
  if q.num < 0 then '-' :: decReprNN (-q) else decReprNN q

/-- The denominator divides a power of ten. Every finite value produced by
the numeric coercion satisfies this. -/
def Smooth (q : ℚ) : Prop :=
  ∃ j : ℕ, (q.den : ℕ) ∣ 10 ^ j

/-- Serialization of a cell value back to text (`str(x)` of the value the
normalized frame holds): the numeric case prints the exact decimal, as
Python's `str` does for every float the coercion can produce. -/
def cellToStr : Cell → Line
  | .na => []
  | .str s => s
  | .num q => decRepr q
  | .pinf => infLower
  | .ninf => '-' :: infLower

/-- Re-serialize a normalized table as a pipe-delimited header row plus data
rows (no dash row). -/
def reserializeDf (df : Df) : Line :=
  joinLines (mkLine df.cols :: df.rows.map (fun r => mkLine (r.map cellToStr)))

/-- Fields-per-line count of the reader. -/
def nFieldsOf (l : Line) : ℕ :=
  (fieldsOf l).length

/-- The header names assigned by the reader, before duplicate freshening. -/
def assignedOf (b : Line) : List Line :=
  match cleanOf b with
  | [] => []
  | h :: _ => assignNames 0 (fieldsOf h)

/-- The surviving trimmed column names of the frame built from block `b`. -/
def finalColsOf (b : Line) : List Line :=
  ((dedupNames [] (assignedOf b)).filter
    (fun c => !(unnamedHead.isPrefixOf c))).map pyStrip

/-- A numeric, non-missing cell (finite or infinite, but never NaN/missing:
the missing case is `Cell.na`). -/
def isNumericCell : Cell → Bool
  | .num _ => true
  | .pinf => true
  | .ninf => true
  | _ => false

end Capstone

namespace Capstone

/-! ### Lemmas about the extraction loop -/

theorem tableLinesLoop_nil_of_noPipe :
    ∀ ls : List Line, (∀ l ∈ ls, hasPipe l = false) →
      tableLinesLoop ls false = [] := by
  intro ls
  induction ls with
  | nil => intro _; rfl
  | cons l ls ih =>
    intro h
    have hl := h l (by simp)
    simp [tableLinesLoop, hl]
    exact ih (fun x hx => h x (by simp [hx]))

theorem hasPipe_of_mem_tableLinesLoop :
    ∀ (ls : List Line) (inT : Bool) (l : Line),
      l ∈ tableLinesLoop ls inT → hasPipe l = true := by
  intro ls
  induction ls with
  | nil => intro inT l h; simp [tableLinesLoop] at h
  | cons x xs ih =>
    intro inT l h
    simp only [tableLinesLoop] at h
    split at h
    · rcases List.mem_cons.mp h with h1 | h1
      · subst h1; assumption
      · exact ih true l h1
    · split at h
      · simp at h
      · exact ih inT l h

theorem isBlank_eq_false_of_hasPipe {l : Line} (h : hasPipe l = true) :
    isBlank l = false := by
  rcases List.any_eq_true.mp h with ⟨c, hc, hceq⟩
  have : c = '|' := by simpa using hceq
  subst this
  refine List.all_eq_false.mpr ⟨'|', hc, ?_⟩
  decide

theorem tableLinesLoop_true_eq (ls : List Line) :
    tableLinesLoop ls true =
      (ls.takeWhile (fun s => !(isBlank s))).filter hasPipe := by
  induction ls with
  | nil => rfl
  | cons l ls ih =>
    by_cases hl : hasPipe l = true
    · have hb := isBlank_eq_false_of_hasPipe hl
      simp [tableLinesLoop, hl, List.takeWhile_cons, hb, List.filter_cons, ih]
    · simp only [Bool.not_eq_true] at hl
      by_cases hb : isBlank l = true
      · simp [tableLinesLoop, hl, hb, List.takeWhile_cons]
      · simp only [Bool.not_eq_true] at hb
        simp [tableLinesLoop, hl, hb, List.takeWhile_cons, List.filter_cons, ih]

theorem tableLinesLoop_false_append (pre : List Line)
    (hpre : ∀ x ∈ pre, hasPipe x = false) (tl : List Line) :
    tableLinesLoop (pre ++ tl) false = tableLinesLoop tl false := by
  induction pre with
  | nil => rfl
  | cons x xs ih =>
    have hx := hpre x (by simp)
    simp only [List.cons_append]
    simp [tableLinesLoop, hx]
    exact ih (fun y hy => hpre y (by simp [hy]))

theorem joinLines_ne_nil {ls : List Line} (h : ls ≠ [])
    (hhead : ∀ l ∈ ls, l ≠ []) : joinLines ls ≠ [] := by
  match ls with
  | [] => exact absurd rfl h
  | [l] => exact hhead l (by simp)
  | l :: l2 :: rest =>
    show l ++ '\n' :: joinLines (l2 :: rest) ≠ []
    intro hcontra
    rcases List.append_eq_nil.mp hcontra with ⟨-, h2⟩
    simp at h2

/-! ### Claim theorems: extraction -/

set_option maxRecDepth 100000

/-- **C1.** The concrete scenario of the specification: extraction splits the
input into the five table lines (header, dash row, Apple, Samsung and Cash
rows) and the prose `"Here is your plan.\n\nRisk notes follow."` in order, and
normalization of that block yields a two-row table (the Cash row, whose
weight cell `bad` fails numeric coercion, is dropped) with weight column
`[40.0, 35.0]`. -/
theorem c1_concrete_scenario :
    extract_markdown_table c1Text = (some c1Block, c1Prose) ∧
      parse_portfolio_table c1Block =
        some ⟨["Name".data, "Ticker".data, "Weight".data, "Country".data],
          [[Cell.str "Apple ".data, Cell.str "AAPL ".data, Cell.num 40,
            Cell.str "US ".data],
           [Cell.str "Samsung ".data, Cell.str "005930.KS ".data, Cell.num 35,
            Cell.str "KR ".data]]⟩ ∧
      (parse_portfolio_table c1Block).elim []
          (fun df => df.rows.map (fun r => r.getD 2 Cell.na)) =
        [Cell.num 40, Cell.num 35] := by
  refine ⟨by decide, by decide, by decide⟩

/-- **C4.** When no line of the input contains the separator `'|'`, the
extraction returns no table block and the original text unchanged. -/
theorem c4_no_pipe_returns_original (answer : Line)
    (h : ∀ l ∈ splitlines answer, hasPipe l = false) :
    extract_markdown_table answer = (none, answer) := by
  have h0 := tableLinesLoop_nil_of_noPipe (splitlines answer) h
  simp [extract_markdown_table, h0]

theorem c4_no_pipe_returns_original_witness :
    (∀ l ∈ splitlines ("hello\nworld").data, hasPipe l = false) ∧
      extract_markdown_table ("hello\nworld").data =
        (none, ("hello\nworld").data) :=
  ⟨by decide, c4_no_pipe_returns_original ("hello\nworld").data (by decide)⟩

/-- **C3 (counterexample).** For the input `"| a |\nx\n| b |"` the claim
forces the block to be the contiguous run of lines from the first
pipe-containing line to the end of the input — that is, the whole input,
including the middle line `x`.  The code instead skips the
non-pipe, non-blank line `x` and returns the non-contiguous block
`"| a |\n| b |"`. -/
theorem c3_counterexample :
    (extract_markdown_table c3Cex).1 = some ("| a |\n| b |").data ∧
      ("| a |\n| b |").data ≠ joinLines (splitlines c3Cex) ∧
      "x".data ∉ splitlines (("| a |\n| b |").data) ∧
      "x".data ∈ splitlines c3Cex := by
  refine ⟨by decide, by decide, by decide, by decide⟩

/-- **C3 (amended).** The block accumulated by extraction consists of the
pipe-containing lines of the contiguous run that begins at the first
pipe-containing line and ends at the first subsequent blank line (or the end
of input); the non-pipe, non-blank lines inside that run are skipped, so the
block itself need not be contiguous. -/
theorem c3_amended_block_structure (answer : Line) (pre rest : List Line)
    (l : Line) (hsplit : splitlines answer = pre ++ l :: rest)
    (hpre : ∀ x ∈ pre, hasPipe x = false) (hl : hasPipe l = true) :
    (extract_markdown_table answer).1 =
      some (joinLines
        ((l :: rest.takeWhile (fun s => !(isBlank s))).filter hasPipe)) := by
  have h0 : tableLinesLoop (splitlines answer) false =
      l :: (rest.takeWhile (fun s => !(isBlank s))).filter hasPipe := by
    rw [hsplit, tableLinesLoop_false_append pre hpre]
    simp [tableLinesLoop, hl, tableLinesLoop_true_eq]
  simp [extract_markdown_table, h0, List.filter_cons, hl]

theorem c3_amended_block_structure_witness :
    (extract_markdown_table ("p\n| a |\nx\n| b |\n\nt | t").data).1 =
      some (joinLines
        ((("| a |").data ::
            (["x".data, "| b |".data, [], "t | t".data]).takeWhile
              (fun s => !(isBlank s))).filter hasPipe)) :=
  c3_amended_block_structure ("p\n| a |\nx\n| b |\n\nt | t").data
    [("p").data] ["x".data, "| b |".data, [], "t | t".data] ("| a |").data
    (by decide) (by decide) (by decide)

/-- **C9.** Neither function signals failure by an exception in the model:
`parse_portfolio_table` wraps its body in `try/except` (every failure path
is the explicit `none` result), and the only raise hazard of
`extract_markdown_table` — `str.split` with an empty separator — is
unreachable because an extracted block always contains a pipe character and
is therefore a nonempty string. -/
theorem c9_no_exception (answer md rem : Line)
    (h : extract_markdown_table answer = (some md, rem)) : md ≠ [] := by
  rcases hloop : tableLinesLoop (splitlines answer) false with - | ⟨l, ls⟩
  · simp [extract_markdown_table, hloop] at h
  · simp only [extract_markdown_table, hloop] at h
    have hmd : md = joinLines (l :: ls) := by
      have h1 := congrArg Prod.fst h
      simp at h1
      exact h1.symm
    rw [hmd]
    refine joinLines_ne_nil (by simp) ?_
    intro x hx
    have hpipe : hasPipe x = true := by
      refine hasPipe_of_mem_tableLinesLoop (splitlines answer) false x ?_
      rw [hloop]; exact hx
    intro hnil
    rw [hnil] at hpipe
    simp [hasPipe] at hpipe

theorem c9_no_exception_witness :
    ("| a |").data ≠ ([] : Line) :=
  c9_no_exception ("x\n| a |").data ("| a |").data
    ("x\n\n").data (by decide)

/-! ### Claim theorems: normalization, concrete parts -/

/-- **C2 (counterexample).** On the block `"| Name | Weight |\n| x | bad |"`
zero rows survive numeric coercion, yet `parse_portfolio_table` does
not return `None`: the final `dropna(...)` leaves an empty DataFrame, which
is returned as a zero-row table, so the claimed "returns none exactly in
these cases" fails on its zero-surviving-rows case. -/
theorem c2_counterexample :
    parse_portfolio_table c2Cex =
      some ⟨["Name".data, "Weight".data], []⟩ := by decide

/-- **C6 (counterexample).** On the block `"| A | Weight |\n| x | inf |"`
normalization succeeds, but the surviving weight value is the IEEE positive
infinity (`pd.to_numeric("inf")` parses it and `dropna` does not remove it),
contradicting "every value in the weight column is finite". -/
theorem c6_counterexample :
    parse_portfolio_table c6Cex =
      some ⟨["A".data, "Weight".data], [[Cell.str "x ".data, Cell.pinf]]⟩ ∧
      (((parse_portfolio_table c6Cex).elim [] Df.rows).getD 0 []).getD 1
          Cell.na = Cell.pinf := by
  refine ⟨by decide, by decide⟩

/-- **C10.** The decorative-row stripping of `parse_portfolio_table` removes
every line whose content is empty after deleting the separator `'|'` and the
space character: the empty character set is a subset of the dash singleton,
so such a line (e.g. a data row of entirely blank cells, or a line of only
pipes) never reaches the delimited-table reader. -/
theorem c10_blank_cells_row_stripped (b l : Line)
    (_hmem : l ∈ splitlines (pyStrip b))
    (hempty : l.filter (fun c => !(c = '|' || c = ' ')) = []) :
    l ∉ cleanOf b := by
  intro hin
  have hdec : decorative l = true := by
    unfold decorative
    rw [hempty]
    rfl
  have := (List.mem_filter.mp hin).2
  rw [hdec] at this
  simp at this

theorem c10_blank_cells_row_stripped_witness :
    c10BlankRow ∈ splitlines (pyStrip c10Block) ∧
      c10BlankRow.filter (fun c => !(c = '|' || c = ' ')) = [] ∧
      c10BlankRow ∉ cleanOf c10Block :=
  ⟨by decide, by decide,
    c10_blank_cells_row_stripped c10Block c10BlankRow (by decide) (by decide)⟩

/-! ### Digit strings and the numeric parser -/

theorem natDigsAux_irrel : ∀ f1 f2 n : ℕ, n < f1 → n < f2 →
    natDigsAux f1 n = natDigsAux f2 n := by
  intro f1
  induction f1 with
  | zero => intro f2 n h1 _; omega
  | succ f ih =>
    intro f2 n h1 h2
    match f2 with
    | 0 => omega
    | f2' + 1 =>
      simp only [natDigsAux]
      by_cases h10 : n < 10
      · simp [h10]
      · simp only [h10, if_false]
        have hdiv : n / 10 < n := Nat.div_lt_self (by omega) (by omega)
        have := ih f2' (n / 10) (by omega) (by omega)
        rw [this]

theorem natDigs_eq (n : ℕ) : natDigs n =
    if n < 10 then [digitChar n]
    else natDigs (n / 10) ++ [digitChar (n % 10)] := by
  by_cases h : n < 10
  · simp [natDigs, natDigsAux, h]
  · have hdiv : n / 10 < n := Nat.div_lt_self (by omega) (by omega)
    rw [if_neg h]
    have h1 : natDigsAux (n + 1) n =
        natDigsAux n (n / 10) ++ [digitChar (n % 10)] := by
      simp [natDigsAux, h]
    have h2 : natDigsAux n (n / 10) = natDigsAux (n / 10 + 1) (n / 10) :=
      natDigsAux_irrel n (n / 10 + 1) (n / 10) (by omega) (by omega)
    show natDigsAux (n + 1) n = natDigsAux (n / 10 + 1) (n / 10) ++
      [digitChar (n % 10)]
    rw [h1, h2]

theorem digitVal_digitChar (d : ℕ) (h : d < 10) :
    digitVal (digitChar d) = d := by
  interval_cases d <;> rfl

theorem isDigitC_digitChar (d : ℕ) : isDigitC (digitChar d) = true := by
  match d with
  | 0 | 1 | 2 | 3 | 4 | 5 | 6 | 7 | 8 => rfl
  | n + 9 => rfl

theorem natOfDigits_concat (l : Line) (c : Char) :
    natOfDigits (l ++ [c]) = 10 * natOfDigits l + digitVal c := by
  unfold natOfDigits
  rw [List.foldl_append]
  rfl

theorem natOfDigits_natDigs : ∀ n : ℕ, natOfDigits (natDigs n) = n := by
  intro n
  induction n using Nat.strong_induction_on with
  | _ n ih =>
    rw [natDigs_eq]
    by_cases h : n < 10
    · simp only [h, if_true]
      have h1 : natOfDigits [digitChar n] = digitVal (digitChar n) := by
        simp [natOfDigits]
      rw [h1, digitVal_digitChar n h]
    · simp only [h, if_false]
      rw [natOfDigits_concat,
        ih (n / 10) (Nat.div_lt_self (by omega) (by omega)),
        digitVal_digitChar (n % 10) (Nat.mod_lt n (by omega))]
      omega

theorem natDigs_ne_nil (n : ℕ) : natDigs n ≠ [] := by
  rw [natDigs_eq]
  by_cases h : n < 10 <;> simp [h]

theorem natDigs_inj {m n : ℕ} (h : natDigs m = natDigs n) : m = n := by
  rw [← natOfDigits_natDigs m, h, natOfDigits_natDigs]

theorem isDigitC_natDigs : ∀ n : ℕ, ∀ c ∈ natDigs n, isDigitC c = true := by
  intro n
  induction n using Nat.strong_induction_on with
  | _ n ih =>
    rw [natDigs_eq]
    by_cases h : n < 10
    · simp only [h, if_true]
      intro c hc
      simp at hc
      rw [hc]
      exact isDigitC_digitChar n
    · simp only [h, if_false]
      intro c hc
      rcases List.mem_append.mp hc with h1 | h1
      · exact ih (n / 10) (Nat.div_lt_self (by omega) (by omega)) c h1
      · simp at h1
        rw [h1]
        exact isDigitC_digitChar (n % 10)

theorem isSpaceC_eq_false_of_isDigitC {c : Char} (h : isDigitC c = true) :
    isSpaceC c = false := by
  by_contra hs
  rw [Bool.not_eq_false] at hs
  simp only [isSpaceC, Bool.or_eq_true, decide_eq_true_eq] at hs
  rcases hs with ((((h1 | h1) | h1) | h1) | h1) | h1 <;>
    (subst h1; exact absurd h (by decide))

theorem ne_space_of_isDigitC {c : Char} (h : isDigitC c = true) :
    (c = ' ') = False :=
  eq_false (fun he => by rw [he] at h; exact absurd h (by decide))

theorem dropWhile_eq_self_head {p : Char → Bool} :
    ∀ l : Line, (∀ c, l.head? = some c → p c = false) → l.dropWhile p = l := by
  intro l h
  cases l with
  | nil => rfl
  | cons c rest =>
    have hc := h c rfl
    simp [List.dropWhile_cons, hc]

theorem pyStrip_eq_self {l : Line}
    (h1 : ∀ c, l.head? = some c → isSpaceC c = false)
    (h2 : ∀ c, l.getLast? = some c → isSpaceC c = false) : pyStrip l = l := by
  unfold pyStrip dropTrailing
  rw [dropWhile_eq_self_head l h1]
  rw [dropWhile_eq_self_head l.reverse
    (fun c hc => h2 c (by rw [← List.head?_reverse]; exact hc)),
    List.reverse_reverse]

theorem getLast?_mem {l : Line} {c : Char} (h : l.getLast? = some c) :
    c ∈ l := by
  have h1 : l.reverse.head? = some c := by rw [List.head?_reverse]; exact h
  have h2 : c ∈ l.reverse := List.mem_of_mem_head? h1
  simpa using h2

theorem pyStrip_digits {l : Line} (h : ∀ c ∈ l, isDigitC c = true) :
    pyStrip l = l := by
  refine pyStrip_eq_self ?_ ?_
  · intro c hc
    exact isSpaceC_eq_false_of_isDigitC (h c (List.mem_of_mem_head? hc))
  · intro c hc
    exact isSpaceC_eq_false_of_isDigitC (h c (getLast?_mem hc))

theorem map_lowerC_digits {l : Line} (h : ∀ c ∈ l, isDigitC c = true) :
    lowerList l = l := by
  unfold lowerList
  induction l with
  | nil => rfl
  | cons c rest ih =>
    have hc := h c (by simp)
    have hlc : lowerC c = c := by
      unfold lowerC
      have : ('A' ≤ c && c ≤ 'Z') = false := by
        simp only [isDigitC] at hc
        simp only [Bool.and_eq_true, decide_eq_true_eq] at hc
        simp only [Bool.and_eq_false_iff, decide_eq_false_iff_not]
        left
        intro hA
        exact absurd (le_trans hA hc.2) (by decide)
      simp [this]
    rw [List.map_cons, hlc, ih (fun x hx => h x (by simp [hx]))]

theorem lowerList_digits_ne {l : Line} (h : ∀ c ∈ l, isDigitC c = true)
    (w : Line) (hw : ∃ c ∈ w, isDigitC c = false) : lowerList l ≠ w := by
  rw [map_lowerC_digits h]
  rcases hw with ⟨c, hcw, hcd⟩
  intro heq
  subst heq
  rw [h c hcw] at hcd
  simp at hcd

theorem takeWhile_eq_self_of_all {p : Char → Bool} :
    ∀ l : Line, (∀ c ∈ l, p c = true) → l.takeWhile p = l := by
  intro l
  induction l with
  | nil => intro _; rfl
  | cons c rest ih =>
    intro h
    have hc := h c (by simp)
    simp only [List.takeWhile_cons, hc, if_true, List.cons.injEq, true_and]
    exact ih (fun x hx => h x (by simp [hx]))

theorem dropWhile_eq_nil_of_all {p : Char → Bool} :
    ∀ l : Line, (∀ c ∈ l, p c = true) → l.dropWhile p = [] := by
  intro l
  induction l with
  | nil => intro _; rfl
  | cons c rest ih =>
    intro h
    have hc := h c (by simp)
    simp only [List.dropWhile_cons, hc, if_true]
    exact ih (fun x hx => h x (by simp [hx]))

/-- `parseNum` on a nonempty all-digit string returns its value. -/
theorem parseNum_digits {l : Line} (hne : l ≠ [])
    (h : ∀ c ∈ l, isDigitC c = true) :
    parseNum l = some (.fin (natOfDigits l)) := by
  unfold parseNum
  rw [pyStrip_digits h]
  match l, hne with
  | c :: rest, _ =>
    have hc := h c (by simp)
    have hplus : (c = '+') = False :=
      eq_false (fun hceq => by rw [hceq] at hc; exact absurd hc (by decide))
    have hminus : (c = '-') = False :=
      eq_false (fun hceq => by rw [hceq] at hc; exact absurd hc (by decide))
    simp only [hplus, hminus, if_false]
    unfold parseUnsigned
    have hinf : lowerList (c :: rest) ≠ infLower :=
      lowerList_digits_ne h _ ⟨'i', by simp [infLower], by decide⟩
    have hinfy : lowerList (c :: rest) ≠ infinityLower :=
      lowerList_digits_ne h _ ⟨'i', by simp [infinityLower], by decide⟩
    have hnan : lowerList (c :: rest) ≠ nanLower :=
      lowerList_digits_ne h _ ⟨'a', by simp [nanLower], by decide⟩
    simp only [hinf, hinfy, hnan, if_false]
    unfold parseDec
    rw [takeWhile_eq_self_of_all _ h, dropWhile_eq_nil_of_all _ h]
    simp

/-! ### Lines, joins and splits -/

theorem head?_append_left {a b : Line} (h : a ≠ []) :
    (a ++ b).head? = a.head? := by
  cases a with
  | nil => exact absurd rfl h
  | cons c cs => rfl

theorem getLast?_append_right {l1 l2 : Line} (h : l2 ≠ []) :
    (l1 ++ l2).getLast? = l2.getLast? := by
  rw [← List.head?_reverse, ← List.head?_reverse, List.reverse_append]
  exact head?_append_left (by simp [h])

theorem head?_joinLines (l : Line) (ls : List Line) (h : l ≠ []) :
    (joinLines (l :: ls)).head? = l.head? := by
  cases ls with
  | nil => rfl
  | cons l2 rest =>
    show (l ++ '\n' :: joinLines (l2 :: rest)).head? = l.head?
    exact head?_append_left h

theorem getLast?_joinLines : ∀ ls : List Line, ls ≠ [] →
    (∀ l ∈ ls, l ≠ []) → (∀ l ∈ ls, l.getLast? = some '|') →
    (joinLines ls).getLast? = some '|' := by
  intro ls
  induction ls with
  | nil => intro h; exact absurd rfl h
  | cons l rest ih =>
    intro _ hne hlast
    cases rest with
    | nil => exact hlast l (by simp)
    | cons l2 rest2 =>
      show (l ++ '\n' :: joinLines (l2 :: rest2)).getLast? = some '|'
      have hJ : joinLines (l2 :: rest2) ≠ [] :=
        joinLines_ne_nil (by simp) (fun x hx => hne x (by simp [hx]))
      rw [getLast?_append_right
        (by simp : ('\n' :: joinLines (l2 :: rest2) : Line) ≠ [])]
      rw [show ('\n' :: joinLines (l2 :: rest2) : Line) =
        ['\n'] ++ joinLines (l2 :: rest2) from rfl]
      rw [getLast?_append_right hJ]
      exact ih (by simp) (fun x hx => hne x (by simp [hx]))
        (fun x hx => hlast x (by simp [hx]))

theorem splitlinesAux_no_nl : ∀ l acc : Line,
    (∀ c ∈ l, c ≠ '\n' ∧ c ≠ '\x0d') →
    splitlinesAux l acc = [acc.reverse ++ l] := by
  intro l
  induction l with
  | nil => intro acc _; simp [splitlinesAux]
  | cons c rest ih =>
    intro acc h
    have hc := h c (by simp)
    rw [show splitlinesAux (c :: rest) acc = splitlinesAux rest (c :: acc) from
      by simp [splitlinesAux, hc.1, hc.2]]
    rw [ih (c :: acc) (fun x hx => h x (by simp [hx]))]
    simp

theorem splitlinesAux_break : ∀ (l rest acc : Line),
    (∀ c ∈ l, c ≠ '\n' ∧ c ≠ '\x0d') →
    splitlinesAux (l ++ '\n' :: rest) acc =
      (acc.reverse ++ l) ::
        (if rest.isEmpty then [] else splitlinesAux rest []) := by
  intro l
  induction l with
  | nil => intro rest acc _; simp [splitlinesAux]
  | cons c cs ih =>
    intro rest acc h
    have hc := h c (by simp)
    rw [List.cons_append]
    rw [show splitlinesAux (c :: (cs ++ '\n' :: rest)) acc =
        splitlinesAux (cs ++ '\n' :: rest) (c :: acc) from
      by simp [splitlinesAux, hc.1, hc.2]]
    rw [ih rest (c :: acc) (fun x hx => h x (by simp [hx]))]
    simp

theorem splitlines_joinLines : ∀ ls : List Line, ls ≠ [] →
    (∀ l ∈ ls, l ≠ []) →
    (∀ l ∈ ls, ∀ c ∈ l, c ≠ '\n' ∧ c ≠ '\x0d') →
    splitlines (joinLines ls) = ls := by
  intro ls
  induction ls with
  | nil => intro h; exact absurd rfl h
  | cons l rest ih =>
    intro _ hne hnl
    cases rest with
    | nil =>
      show splitlines (joinLines [l]) = [l]
      have hl : l ≠ [] := hne l (by simp)
      show splitlines l = [l]
      unfold splitlines
      rw [if_neg (by simpa using hl)]
      rw [splitlinesAux_no_nl l [] (hnl l (by simp))]
      simp
    | cons l2 rest2 =>
      show splitlines (l ++ '\n' :: joinLines (l2 :: rest2)) = l :: l2 :: rest2
      have hl : l ≠ [] := hne l (by simp)
      have hJ : joinLines (l2 :: rest2) ≠ [] :=
        joinLines_ne_nil (by simp) (fun x hx => hne x (by simp [hx]))
      have hih : splitlines (joinLines (l2 :: rest2)) = l2 :: rest2 :=
        ih (by simp) (fun x hx => hne x (by simp [hx]))
          (fun x hx => hnl x (by simp [hx]))
      unfold splitlines
      rw [if_neg (by simp [hl])]
      rw [splitlinesAux_break l _ [] (hnl l (by simp))]
      rw [if_neg (by simpa using hJ)]
      unfold splitlines at hih
      rw [if_neg (by simpa using hJ)] at hih
      rw [hih]
      simp

theorem splitChar_sep (rest : Line) :
    splitChar '|' ('|' :: rest) = [] :: splitChar '|' rest := by
  simp [splitChar]

theorem splitChar_no_sep : ∀ a : Line, (∀ c ∈ a, c ≠ '|') →
    splitChar '|' a = [a] := by
  intro a
  induction a with
  | nil => intro _; rfl
  | cons c cs ih =>
    intro h
    have hc := h c (by simp)
    have h1 := ih (fun x hx => h x (by simp [hx]))
    simp [splitChar, hc, h1]

theorem splitChar_append (a : Line) (ha : ∀ c ∈ a, c ≠ '|') (rest : Line) :
    splitChar '|' (a ++ '|' :: rest) = a :: splitChar '|' rest := by
  induction a with
  | nil => simp [splitChar]
  | cons c cs ih =>
    have hc := ha c (by simp)
    have h1 := ih (fun x hx => ha x (by simp [hx]))
    simp only [List.cons_append]
    simp [splitChar, hc, h1]

theorem splitChar_joinBar_concat : ∀ cells : List Line, cells ≠ [] →
    (∀ x ∈ cells, ∀ c ∈ x, c ≠ '|') →
    splitChar '|' (joinBar cells ++ ['|']) = cells ++ [[]] := by
  intro cells
  induction cells with
  | nil => intro h; exact absurd rfl h
  | cons x rest ih =>
    intro _ hnp
    cases rest with
    | nil =>
      show splitChar '|' (x ++ ['|']) = [x, []]
      rw [show (['|'] : Line) = '|' :: [] from rfl]
      rw [splitChar_append x (hnp x (by simp)) []]
      rfl
    | cons y rest2 =>
      show splitChar '|' ((x ++ '|' :: joinBar (y :: rest2)) ++ ['|']) =
        x :: (y :: rest2 ++ [[]])
      rw [List.append_assoc, List.cons_append]
      rw [splitChar_append x (hnp x (by simp)) _]
      rw [ih (by simp) (fun z hz => hnp z (by simp [hz]))]

theorem fieldsOf_mkLine (cells : List Line) (hne : cells ≠ [])
    (hc : ∀ x ∈ cells, ∀ c ∈ x, c ≠ '|') :
    fieldsOf (mkLine cells) = [] :: (cells.map skipInit ++ [[]]) := by
  unfold fieldsOf mkLine
  rw [splitChar_sep, splitChar_joinBar_concat cells hne hc]
  simp [skipInit]

theorem head?_mkLine (cells : List Line) : (mkLine cells).head? = some '|' :=
  rfl

theorem mkLine_ne_nil (cells : List Line) : mkLine cells ≠ [] := by
  simp [mkLine]

theorem getLast?_mkLine (cells : List Line) :
    (mkLine cells).getLast? = some '|' := by
  rw [show mkLine cells = ('|' :: joinBar cells) ++ ['|'] from by
    simp [mkLine]]
  exact List.getLast?_concat _

theorem mem_joinBar {c : Char} : ∀ cells : List Line,
    c ∈ joinBar cells → c = '|' ∨ ∃ x ∈ cells, c ∈ x := by
  intro cells
  induction cells with
  | nil => intro h; simp [joinBar] at h
  | cons x rest ih =>
    intro h
    cases rest with
    | nil => exact Or.inr ⟨x, by simp, h⟩
    | cons y rest2 =>
      rcases List.mem_append.mp h with h1 | h1
      · exact Or.inr ⟨x, by simp, h1⟩
      · rcases List.mem_cons.mp h1 with h2 | h2
        · exact Or.inl h2
        · rcases ih h2 with h3 | ⟨z, hz, hcz⟩
          · exact Or.inl h3
          · exact Or.inr ⟨z, by simp [hz], hcz⟩

theorem mem_mkLine {c : Char} {cells : List Line} (h : c ∈ mkLine cells) :
    c = '|' ∨ ∃ x ∈ cells, c ∈ x := by
  unfold mkLine at h
  rcases List.mem_cons.mp h with h1 | h1
  · exact Or.inl h1
  · rcases List.mem_append.mp h1 with h2 | h2
    · exact mem_joinBar cells h2
    · simp at h2
      exact Or.inl h2

theorem mem_joinBar_of_mem {cells : List Line} {x : Line} (hx : x ∈ cells)
    {c : Char} (hc : c ∈ x) : c ∈ joinBar cells := by
  induction cells with
  | nil => simp at hx
  | cons y rest ih =>
    cases rest with
    | nil =>
      simp at hx
      subst hx
      exact hc
    | cons z rest2 =>
      rcases List.mem_cons.mp hx with h1 | h1
      · subst h1
        exact List.mem_append.mpr (Or.inl hc)
      · refine List.mem_append.mpr (Or.inr ?_)
        exact List.mem_cons.mpr (Or.inr (ih h1))

theorem mem_mkLine_of_mem {cells : List Line} {x : Line} (hx : x ∈ cells)
    {c : Char} (hc : c ∈ x) : c ∈ mkLine cells := by
  unfold mkLine
  refine List.mem_cons.mpr (Or.inr ?_)
  exact List.mem_append.mpr (Or.inl (mem_joinBar_of_mem hx hc))

theorem charSafe_spec {c : Char} (h : charSafe c = true) :
    c ≠ '|' ∧ c ≠ '"' ∧ c ≠ '\n' ∧ c ≠ '\x0d' := by
  simp only [charSafe, Bool.not_eq_true', Bool.or_eq_false_iff,
    decide_eq_false_iff_not] at h
  obtain ⟨⟨⟨⟨⟨⟨⟨⟨⟨⟨⟨h1, h2⟩, h3⟩, h4⟩, h5⟩, h6⟩, h7⟩, h8⟩, h9⟩, h10⟩,
    h11⟩, h12⟩ := h
  exact ⟨h1, h2, h3, h4⟩

/-! ### The reader pipeline on serialized tables -/

theorem assignNames_concat : ∀ (mids : List Line) (i : ℕ),
    (∀ m ∈ mids, m ≠ []) →
    assignNames i (mids ++ [[]]) = mids ++ [unnamedName (i + mids.length)] := by
  intro mids
  induction mids with
  | nil => intro i _; simp [assignNames]
  | cons m rest ih =>
    intro i h
    have hm : m.isEmpty = false := by
      simpa using h m (by simp)
    simp only [List.cons_append, assignNames, hm, Bool.false_eq_true,
      if_false, List.append_eq]
    rw [ih (i + 1) (fun x hx => h x (by simp [hx]))]
    simp only [List.cons_append, List.length_cons]
    rw [show i + 1 + rest.length = i + (rest.length + 1) from by omega]

theorem assignNames_header (mids : List Line) (h : ∀ m ∈ mids, m ≠ []) :
    assignNames 0 ([] :: (mids ++ [[]])) =
      unnamedName 0 :: (mids ++ [unnamedName (mids.length + 1)]) := by
  have h0 : assignNames 0 ([] :: (mids ++ [[]])) =
      unnamedName 0 :: assignNames 1 (mids ++ [[]]) := by
    simp [assignNames]
  rw [h0, assignNames_concat mids 1 h]
  rw [show 1 + mids.length = mids.length + 1 from by omega]

theorem unnamedHead_prefix_unnamedName (i : ℕ) :
    unnamedHead.isPrefixOf (unnamedName i) = true := rfl

theorem unnamedName_inj {i j : ℕ} (h : unnamedName i = unnamedName j) :
    i = j := by
  simp only [unnamedName, List.cons.injEq, true_and] at h
  exact natDigs_inj h

theorem dedupNames_eq_self : ∀ names seen : List Line,
    names.Nodup → (∀ n ∈ names, n ∉ seen) → dedupNames seen names = names := by
  intro names
  induction names with
  | nil => intro seen _ _; rfl
  | cons f fs ih =>
    intro seen hnd hns
    have hf : f ∉ seen := hns f (by simp)
    obtain ⟨hfm, hnd2⟩ := List.nodup_cons.mp hnd
    show (if f ∈ seen then freshName f seen (seen.length + 1) 1 else f) ::
      dedupNames ((if f ∈ seen then freshName f seen (seen.length + 1) 1
        else f) :: seen) fs = f :: fs
    rw [if_neg hf]
    rw [ih (f :: seen) hnd2 ?_]
    intro n hn
    simp only [List.mem_cons]
    push_neg
    exact ⟨fun he => hfm (he ▸ hn), hns n (by simp [hn])⟩

theorem assigned_nodup (names : List Line)
    (hdis : (names.map skipInit).Nodup)
    (hcl : ∀ nm ∈ names, unnamedClean nm = true) :
    (unnamedName 0 ::
      (names.map skipInit ++ [unnamedName (names.length + 1)])).Nodup := by
  have hmid : ∀ m ∈ names.map skipInit, ∀ i : ℕ, m ≠ unnamedName i := by
    intro m hm i he
    rcases List.mem_map.mp hm with ⟨nm, hnm, hme⟩
    have := hcl nm hnm
    simp only [unnamedClean, Bool.and_eq_true, Bool.not_eq_true'] at this
    rw [hme.symm] at he
    rw [he] at this
    rw [unnamedHead_prefix_unnamedName] at this
    simp at this
  refine List.nodup_cons.mpr ⟨?_, ?_⟩
  · intro hmem
    rcases List.mem_append.mp hmem with h1 | h1
    · exact hmid _ h1 0 rfl
    · simp only [List.mem_singleton] at h1
      have := unnamedName_inj h1
      omega
  · refine List.nodup_append.mpr ⟨hdis, List.nodup_singleton _, ?_⟩
    intro m hm hmem
    simp only [List.mem_singleton] at hmem
    exact hmid m hm _ hmem

theorem padTo_of_length {n : ℕ} {r : List Cell} (h : r.length = n) :
    padTo n r = r := by
  unfold padTo
  rw [h, Nat.sub_self]
  simp

theorem maskList_all_true : ∀ (bs : List Bool) (xs : List Cell),
    bs.length = xs.length → (∀ b ∈ bs, b = true) → maskList bs xs = xs := by
  intro bs
  induction bs with
  | nil =>
    intro xs hlen _
    cases xs with
    | nil => rfl
    | cons x xs2 => simp at hlen
  | cons b bs2 ih =>
    intro xs hlen hall
    cases xs with
    | nil => simp at hlen
    | cons x xs2 =>
      have hb : b = true := hall b (by simp)
      subst hb
      show maskList (true :: bs2) (x :: xs2) = x :: xs2
      simp only [maskList, if_true]
      rw [ih xs2 (by simpa using hlen) (fun y hy => hall y (by simp [hy]))]

theorem maskList_append : ∀ (bs1 : List Bool) (xs1 : List Cell),
    bs1.length = xs1.length → ∀ (bs2 : List Bool) (xs2 : List Cell),
    maskList (bs1 ++ bs2) (xs1 ++ xs2) =
      maskList bs1 xs1 ++ maskList bs2 xs2 := by
  intro bs1
  induction bs1 with
  | nil =>
    intro xs1 hlen bs2 xs2
    cases xs1 with
    | nil => rfl
    | cons x xs => simp at hlen
  | cons b bs ih =>
    intro xs1 hlen bs2 xs2
    cases xs1 with
    | nil => simp at hlen
    | cons x xs =>
      show maskList (b :: (bs ++ bs2)) (x :: (xs ++ xs2)) = _
      by_cases hb : b = true
      · subst hb
        simp only [maskList, if_true]
        rw [ih xs (by simpa using hlen) bs2 xs2]
        rfl
      · rw [Bool.not_eq_true] at hb
        subst hb
        simp only [maskList, Bool.false_eq_true, if_false]
        exact ih xs (by simpa using hlen) bs2 xs2

theorem getD_map_line {f : Line → Line} (hf : f [] = []) :
    ∀ (l : List Line) (n : ℕ), (l.map f).getD n [] = f (l.getD n []) := by
  intro l
  induction l with
  | nil => intro n; simp [hf]
  | cons x xs ih =>
    intro n
    cases n with
    | zero => rfl
    | succ m => simpa using ih m

theorem getD_map_strCell :
    ∀ (r : List Line) (w : ℕ),
      (r.map strCellOf).getD w Cell.na = strCellOf (r.getD w []) := by
  intro r
  induction r with
  | nil => intro w; simp [strCellOf, skipInit, toCell]
  | cons x xs ih =>
    intro w
    cases w with
    | zero => rfl
    | succ m => simpa using ih m

theorem dropWhile_dropWhile {p q : Char → Bool}
    (himp : ∀ c, q c = true → p c = true) :
    ∀ l : Line, (l.dropWhile q).dropWhile p = l.dropWhile p := by
  intro l
  induction l with
  | nil => rfl
  | cons c rest ih =>
    by_cases hq : q c = true
    · have hp := himp c hq
      simp only [List.dropWhile_cons, hq, if_true, hp]
      exact ih
    · rw [Bool.not_eq_true] at hq
      simp only [List.dropWhile_cons, hq, Bool.false_eq_true, if_false]

theorem pyStrip_skipInit (l : Line) : pyStrip (skipInit l) = pyStrip l := by
  unfold pyStrip skipInit
  rw [dropWhile_dropWhile (fun c hc => ?_)]
  simp only [decide_eq_true_eq] at hc
  simp [isSpaceC, hc]

theorem findWeightIdxAux_spec : ∀ (cols : List Line) (i w : ℕ),
    w < cols.length →
    (∀ j, j < w → hasKeyword (cols.getD j []) = false) →
    hasKeyword (cols.getD w []) = true →
    findWeightIdxAux i cols = some (i + w) := by
  intro cols
  induction cols with
  | nil => intro i w hw _ _; simp at hw
  | cons c cs ih =>
    intro i w hw hlt hkw
    by_cases hk : hasKeyword c = true
    · have hw0 : w = 0 := by
        by_contra hne
        have := hlt 0 (by omega)
        simp only [List.getD_cons_zero] at this
        rw [hk] at this
        simp at this
      subst hw0
      simp [findWeightIdxAux, hk]
    · rw [Bool.not_eq_true] at hk
      have hw0 : w ≠ 0 := by
        intro he
        subst he
        simp only [List.getD_cons_zero] at hkw
        rw [hkw] at hk
        simp at hk
      obtain ⟨w', rfl⟩ : ∃ w', w = w' + 1 := ⟨w - 1, by omega⟩
      simp only [findWeightIdxAux, hk, Bool.false_eq_true, if_false]
      rw [ih (i + 1) w' (by simpa using hw)
        (fun j hj => by simpa using hlt (j + 1) (by omega))
        (by simpa using hkw)]
      rw [show i + 1 + w' = i + (w' + 1) from by omega]

theorem filter_eq_length_le_one {cols : List Line} (h : cols.Nodup)
    (x : Line) : (cols.filter (fun c => c = x)).length ≤ 1 := by
  induction cols with
  | nil => simp
  | cons c cs ih =>
    obtain ⟨hcm, hnd⟩ := List.nodup_cons.mp h
    by_cases hc : c = x
    · subst hc
      rw [List.filter_cons_of_pos (by simp)]
      have hnil : cs.filter (fun y => y = c) = [] := by
        refine List.filter_eq_nil_iff.mpr ?_
        intro a ha
        simp only [decide_eq_true_eq]
        intro he
        exact hcm (he ▸ ha)
      rw [hnil]
      simp
    · rw [List.filter_cons_of_neg (by simpa using hc)]
      exact ih hnd

theorem decorative_mkDash (n : ℕ) : decorative (mkDash n) = true := by
  unfold decorative
  refine List.all_eq_true.mpr ?_
  intro c hc
  obtain ⟨hcm, hcp⟩ := List.mem_filter.mp hc
  rcases mem_mkLine hcm with h1 | ⟨x, hx, hcx⟩
  · subst h1
    simp at hcp
  · have := List.eq_of_mem_replicate hx
    subst this
    have h2 : c = '-' := by simpa using hcx
    simp [h2]

theorem decorative_mkLine_false {cells : List Line}
    (hsafe : ∀ x ∈ cells, lineSafe x = true)
    (hcontent : rowHasContent cells = true) :
    decorative (mkLine cells) = false := by
  unfold rowHasContent at hcontent
  rcases List.any_eq_true.mp hcontent with ⟨x, hx, hxa⟩
  rcases List.any_eq_true.mp hxa with ⟨ch, hch, hchp⟩
  simp only [Bool.not_eq_true', Bool.or_eq_false_iff,
    decide_eq_false_iff_not] at hchp
  obtain ⟨hdash, hspace⟩ := hchp
  have hchsafe : charSafe ch = true := by
    have := hsafe x hx
    exact List.all_eq_true.mp this ch hch
  obtain ⟨hpipe, -, -, -⟩ := charSafe_spec hchsafe
  unfold decorative
  refine List.all_eq_false.mpr ⟨ch, ?_, by simpa using hdash⟩
  refine List.mem_filter.mpr ⟨mem_mkLine_of_mem hx hch, ?_⟩
  have hsp : ch ≠ ' ' := by
    intro he
    rw [he] at hspace
    simp [isSpaceC] at hspace
  simp [hpipe, hsp]

theorem readCsv_serialized (names : List Line) (rows : List (List Line))
    (hne : names ≠ [])
    (hnm_ne : ∀ m ∈ names.map skipInit, m ≠ [])
    (hnp : ∀ nm ∈ names, ∀ c ∈ nm, c ≠ '|')
    (hrp : ∀ r ∈ rows, ∀ cell ∈ r, ∀ c ∈ cell, c ≠ '|')
    (hrl : ∀ r ∈ rows, r.length = names.length)
    (hnodup : (unnamedName 0 ::
      (names.map skipInit ++ [unnamedName (names.length + 1)])).Nodup) :
    readCsv (mkLine names :: rows.map mkLine) =
      some ⟨unnamedName 0 ::
          (names.map skipInit ++ [unnamedName (names.length + 1)]),
        rows.map (fun r => Cell.na :: (r.map strCellOf ++ [Cell.na]))⟩ := by
  have hfields : fieldsOf (mkLine names) = [] :: (names.map skipInit ++ [[]]) :=
    fieldsOf_mkLine names hne hnp
  have hassigned : assignNames 0 (fieldsOf (mkLine names)) =
      unnamedName 0 ::
        (names.map skipInit ++ [unnamedName (names.length + 1)]) := by
    rw [hfields, assignNames_header (names.map skipInit) hnm_ne,
      List.length_map]
  have hdedup : dedupNames [] (assignNames 0 (fieldsOf (mkLine names))) =
      unnamedName 0 ::
        (names.map skipInit ++ [unnamedName (names.length + 1)]) := by
    rw [hassigned]
    exact dedupNames_eq_self _ [] hnodup (by simp)
  have hrne : ∀ r ∈ rows, r ≠ [] := by
    intro r hr he
    have h1 := hrl r hr
    rw [he, List.length_nil] at h1
    exact hne (List.length_eq_zero.mp h1.symm)
  have hrows2 : (rows.map mkLine).map fieldsOf =
      rows.map (fun r => [] :: (r.map skipInit ++ [[]])) := by
    rw [List.map_map]
    refine List.map_congr_left ?_
    intro r hr
    exact fieldsOf_mkLine r (hrne r hr) (hrp r hr)
  have hlenA : (unnamedName 0 ::
      (names.map skipInit ++ [unnamedName (names.length + 1)])).length =
      names.length + 2 := by
    simp
  have hany : (rows.map (fun r => [] :: (r.map skipInit ++ [[]]))).any
      (fun r => (unnamedName 0 ::
        (names.map skipInit ++ [unnamedName (names.length + 1)])).length <
          r.length) = false := by
    rw [List.any_map, List.any_eq_false]
    intro r hr
    simp only [Function.comp_apply, decide_eq_true_eq, hlenA,
      List.length_cons, List.length_append, List.length_map, List.length_nil]
    rw [hrl r hr]
    omega
  simp only [readCsv, hdedup, hrows2, hany, Bool.false_eq_true, if_false,
    Option.some.injEq, Df.mk.injEq, true_and]
  rw [List.map_map]
  refine List.map_congr_left ?_
  intro r hr
  simp only [Function.comp_apply]
  have hmapped : (([] :: (r.map skipInit ++ [[]])) : List Line).map toCell =
      Cell.na :: (r.map strCellOf ++ [Cell.na]) := by
    simp only [List.map_cons, List.map_append, List.map_map, List.map_nil]
    rfl
  rw [hmapped, hlenA]
  refine padTo_of_length ?_
  simp only [List.length_cons, List.length_append, List.length_map,
    List.length_nil]
  rw [hrl r hr]

theorem dropUnnamed_serialized (names : List Line) (rows : List (List Line))
    (hcl : ∀ nm ∈ names, unnamedClean nm = true)
    (hrl : ∀ r ∈ rows, r.length = names.length) :
    dropUnnamed ⟨unnamedName 0 ::
        (names.map skipInit ++ [unnamedName (names.length + 1)]),
      rows.map (fun r => Cell.na :: (r.map strCellOf ++ [Cell.na]))⟩ =
      ⟨names.map skipInit, rows.map (fun r => r.map strCellOf)⟩ := by
  have hpredM : ∀ m ∈ names.map skipInit,
      (!(unnamedHead.isPrefixOf m)) = true := by
    intro m hm
    rcases List.mem_map.mp hm with ⟨nm, hnm, hme⟩
    have := hcl nm hnm
    simp only [unnamedClean, Bool.and_eq_true, Bool.not_eq_true'] at this
    rw [← hme]
    simp [this.1]
  have hcols : (unnamedName 0 ::
      (names.map skipInit ++ [unnamedName (names.length + 1)])).filter
        (fun c => !(unnamedHead.isPrefixOf c)) = names.map skipInit := by
    rw [List.filter_cons_of_neg
      (by simp [unnamedHead_prefix_unnamedName]), List.filter_append]
    rw [List.filter_eq_self.mpr hpredM]
    rw [show (([unnamedName (names.length + 1)] : List Line).filter
      (fun c => !(unnamedHead.isPrefixOf c))) = [] from by
        simp [unnamedHead_prefix_unnamedName]]
    simp
  unfold dropUnnamed
  simp only [hcols]
  refine congrArg _ ?_
  rw [List.map_map]
  refine List.map_congr_left ?_
  intro r hr
  simp only [Function.comp_apply]
  have hkeep : (unnamedName 0 ::
      (names.map skipInit ++ [unnamedName (names.length + 1)])).map
        (fun c => !(unnamedHead.isPrefixOf c)) =
      false :: ((names.map skipInit).map
        (fun c => !(unnamedHead.isPrefixOf c)) ++ [false]) := by
    simp [unnamedHead_prefix_unnamedName]
  rw [hkeep]
  show maskList (false :: _) (Cell.na :: _) = _
  rw [show ∀ bs (x : Cell) xs, maskList (false :: bs) (x :: xs) =
    maskList bs xs from fun bs x xs => rfl]
  rw [maskList_append _ _ (by simp [hrl r hr])]
  rw [maskList_all_true _ _ (by simp [hrl r hr])
    (fun b hb => by
      rcases List.mem_map.mp hb with ⟨m, hm, hbe⟩
      rw [← hbe]
      exact hpredM m hm)]
  rw [show maskList [false] [Cell.na] = [] from rfl]
  simp

theorem applyCoerce_map (w : ℕ) (rows : List (List Line)) :
    applyCoerce w (rows.map (fun r => r.map strCellOf)) =
      rows.filterMap (coRow w) := by
  unfold applyCoerce
  rw [List.filterMap_map]
  refine List.filterMap_congr ?_
  intro r _
  show (match coerceCell ((r.map strCellOf).getD w Cell.na) with
    | .nan => none
    | v => some ((r.map strCellOf).set w (cellOfNum v))) = coRow w r
  rw [getD_map_strCell]
  rfl

theorem cleanOf_serializeTable (withDash : Bool) (names : List Line)
    (rows : List (List Line))
    (hn_safe : ∀ nm ∈ names, lineSafe nm = true)
    (hr_safe : ∀ r ∈ rows, ∀ c ∈ r, lineSafe c = true)
    (hn_content : rowHasContent names = true)
    (hr_content : ∀ r ∈ rows, rowHasContent r = true) :
    cleanOf (serializeTable withDash names rows) =
      mkLine names :: rows.map mkLine := by
  have hmemL : ∀ l ∈ (mkLine names ::
      ((if withDash then [mkDash names.length] else []) ++ rows.map mkLine)),
      (l = mkLine names ∨ l = mkDash names.length) ∨
        ∃ r ∈ rows, l = mkLine r := by
    intro l hl
    rcases List.mem_cons.mp hl with h1 | h1
    · exact Or.inl (Or.inl h1)
    · rcases List.mem_append.mp h1 with h2 | h2
      · by_cases hd : withDash
        · rw [if_pos hd] at h2
          simp only [List.mem_singleton] at h2
          exact Or.inl (Or.inr h2)
        · rw [if_neg hd] at h2
          simp at h2
      · rcases List.mem_map.mp h2 with ⟨r, hr, hre⟩
        exact Or.inr ⟨r, hr, hre.symm⟩
  have hLne : ∀ l ∈ (mkLine names ::
      ((if withDash then [mkDash names.length] else []) ++ rows.map mkLine)),
      l ≠ [] := by
    intro l hl
    rcases hmemL l hl with (h | h) | ⟨r, -, h⟩ <;>
      (rw [h]; exact mkLine_ne_nil _)
  have hLlast : ∀ l ∈ (mkLine names ::
      ((if withDash then [mkDash names.length] else []) ++ rows.map mkLine)),
      l.getLast? = some '|' := by
    intro l hl
    rcases hmemL l hl with (h | h) | ⟨r, -, h⟩ <;>
      (rw [h]; exact getLast?_mkLine _)
  have hsafeChars : ∀ l ∈ (mkLine names ::
      ((if withDash then [mkDash names.length] else []) ++ rows.map mkLine)),
      ∀ c ∈ l, c ≠ '\n' ∧ c ≠ '\x0d' := by
    intro l hl c hc
    have hcell : ∀ (cells : List Line),
        (∀ x ∈ cells, lineSafe x = true) → c ∈ mkLine cells →
        c ≠ '\n' ∧ c ≠ '\x0d' := by
      intro cells hcs hmem
      rcases mem_mkLine hmem with h1 | ⟨x, hx, hcx⟩
      · subst h1; exact ⟨by decide, by decide⟩
      · have := List.all_eq_true.mp (hcs x hx) c hcx
        obtain ⟨-, -, h3, h4⟩ := charSafe_spec this
        exact ⟨h3, h4⟩
    rcases hmemL l hl with (h | h) | ⟨r, hr, h⟩
    · exact hcell names hn_safe (h ▸ hc)
    · subst h
      rcases mem_mkLine hc with h1 | ⟨x, hx, hcx⟩
      · subst h1; exact ⟨by decide, by decide⟩
      · have := List.eq_of_mem_replicate hx
        subst this
        have h2 : c = '-' := by simpa using hcx
        subst h2
        exact ⟨by decide, by decide⟩
    · exact hcell r (hr_safe r hr) (h ▸ hc)
  have hstrip : pyStrip (serializeTable withDash names rows) =
      serializeTable withDash names rows := by
    refine pyStrip_eq_self ?_ ?_
    · intro c hc
      rw [show serializeTable withDash names rows = joinLines (mkLine names ::
        ((if withDash then [mkDash names.length] else []) ++
          rows.map mkLine)) from rfl] at hc
      rw [head?_joinLines _ _ (mkLine_ne_nil names), head?_mkLine] at hc
      have h2 : '|' = c := by simpa using hc
      rw [← h2]
      decide
    · intro c hc
      rw [show serializeTable withDash names rows = joinLines (mkLine names ::
        ((if withDash then [mkDash names.length] else []) ++
          rows.map mkLine)) from rfl] at hc
      rw [getLast?_joinLines _ (by simp) hLne hLlast] at hc
      have h2 : '|' = c := by simpa using hc
      rw [← h2]
      decide
  have hsplit : splitlines (serializeTable withDash names rows) =
      mkLine names ::
        ((if withDash then [mkDash names.length] else []) ++
          rows.map mkLine) :=
    splitlines_joinLines _ (by simp) hLne hsafeChars
  unfold cleanOf
  rw [hstrip, hsplit]
  rw [List.filter_cons_of_pos
    (by simp [decorative_mkLine_false hn_safe hn_content])]
  rw [List.filter_append]
  have hdash : ((if withDash then [mkDash names.length] else []) :
      List Line).filter (fun l => !(decorative l)) = [] := by
    by_cases hd : withDash
    · rw [if_pos hd]
      simp [decorative_mkDash]
    · rw [if_neg hd]
      rfl
  rw [hdash]
  rw [List.filter_eq_self.mpr ?_]
  · simp
  · intro l hl
    rcases List.mem_map.mp hl with ⟨r, hr, hre⟩
    rw [← hre]
    simp [decorative_mkLine_false (hr_safe r hr) (hr_content r hr)]

/-- Normalization of a serialized well-formed table: the columns are the
trimmed header names, and each data row is kept (with the weight cell
replaced by its numeric value) exactly when its weight cell coerces to a
number. -/
theorem parse_serializeTable (withDash : Bool) (names : List Line)
    (rows : List (List Line)) (wIdx : ℕ) (hok : TableOK names rows wIdx) :
    parse_portfolio_table (serializeTable withDash names rows) =
      some ⟨names.map pyStrip, rows.filterMap (coRow wIdx)⟩ := by
  obtain ⟨hsafe, hne', hcleanN, hdis1, hdis2, hw, hkw, hkwlt, hcontent,
    hrows⟩ := hok
  have hnames_ne : names ≠ [] := by
    intro h
    rw [h] at hw
    simp at hw
  have hnp : ∀ nm ∈ names, ∀ c ∈ nm, c ≠ '|' := by
    intro nm hnm c hc
    exact (charSafe_spec (List.all_eq_true.mp (hsafe nm hnm) c hc)).1
  have hrp : ∀ r ∈ rows, ∀ cell ∈ r, ∀ c ∈ cell, c ≠ '|' := by
    intro r hr cell hcell c hc
    exact (charSafe_spec
      (List.all_eq_true.mp ((hrows r hr).2.1 cell hcell) c hc)).1
  have hrl : ∀ r ∈ rows, r.length = names.length := fun r hr => (hrows r hr).1
  have hnm_ne : ∀ m ∈ names.map skipInit, m ≠ [] := by
    intro m hm he
    rcases List.mem_map.mp hm with ⟨nm, hnm, hme⟩
    have h1 : pyStrip nm = [] := by
      rw [← pyStrip_skipInit nm, hme, he]
      rfl
    exact hne' nm hnm h1
  have hnodup := assigned_nodup names hdis1 hcleanN
  have hcln := cleanOf_serializeTable withDash names rows hsafe
    (fun r hr => (hrows r hr).2.1) hcontent (fun r hr => (hrows r hr).2.2)
  have hread := readCsv_serialized names rows hnames_ne hnm_ne hnp hrp hrl
    hnodup
  have hdrop := dropUnnamed_serialized names rows hcleanN hrl
  have hcols2 : (names.map skipInit).map pyStrip = names.map pyStrip := by
    rw [List.map_map]
    refine List.map_congr_left ?_
    intro nm _
    exact pyStrip_skipInit nm
  have hweight : findWeightIdx (names.map pyStrip) = some wIdx := by
    unfold findWeightIdx
    have h0 := findWeightIdxAux_spec (names.map pyStrip) 0 wIdx
      (by simpa using hw)
      (fun j hj => by
        rw [getD_map_line rfl names j]
        exact hkwlt j hj)
      (by
        rw [getD_map_line rfl names wIdx]
        exact hkw)
    simpa using h0
  have hdup : ¬ 2 ≤ ((names.map pyStrip).filter
      (fun c => c = (names.map pyStrip).getD wIdx [])).length := by
    have h1 := filter_eq_length_le_one hdis2
      ((names.map pyStrip).getD wIdx [])
    omega
  unfold parse_portfolio_table
  rw [hcln, hread]
  simp only [hdrop, hcols2, hweight]
  rw [if_neg hdup]
  rw [applyCoerce_map]

/-! ### Percentage cells and kept rows -/

theorem digit_survives_clean {ch : Char} (h : isDigitC ch = true) :
    (!(ch = '%' || ch = ',')) = true := by
  have h1 : ch ≠ '%' := fun he => absurd (he ▸ h) (by decide)
  have h2 : ch ≠ ',' := fun he => absurd (he ▸ h) (by decide)
  simp [h1, h2]

theorem percent_shape {c : Line} (h : isPercentCell c = true) :
    c = c.dropLast ++ ['%'] ∧ c.dropLast ≠ [] ∧
      ∀ x ∈ c.dropLast, isDigitC x = true := by
  simp only [isPercentCell, Bool.and_eq_true, Bool.not_eq_true',
    decide_eq_true_eq] at h
  obtain ⟨⟨hne0, hall⟩, hlast⟩ := h
  have hcne : c ≠ [] := by
    intro he
    rw [he] at hlast
    simp at hlast
  refine ⟨?_, by simpa using hne0, fun x hx => List.all_eq_true.mp hall x hx⟩
  conv_lhs => rw [← List.dropLast_append_getLast hcne]
  congr 1
  have := List.getLast?_eq_getLast c hcne
  rw [this] at hlast
  simpa using hlast

theorem coerceStr_percent {c : Line} (h : isPercentCell c = true) :
    coerceStr c = PyNum.fin (pctVal c) := by
  obtain ⟨hshape, hne, hdig⟩ := percent_shape h
  have hhead : ∀ ch, c.head? = some ch → (ch = ' ') = False := by
    intro ch hch
    rcases List.exists_cons_of_ne_nil hne with ⟨d, ds', hds⟩
    rw [hshape, hds] at hch
    simp only [List.cons_append, List.head?_cons, Option.some.injEq] at hch
    have hd : isDigitC ch = true := by
      refine hdig ch ?_
      rw [hds, ← hch]
      simp
    exact ne_space_of_isDigitC hd
  have hskip : skipInit c = c := by
    unfold skipInit
    refine dropWhile_eq_self_head c ?_
    intro ch hch
    simp [hhead ch hch]
  have hcne : c ≠ [] := by
    intro he
    rw [he] at hshape
    simp at hshape
  unfold coerceStr strCellOf
  rw [hskip]
  unfold toCell
  rw [if_neg (by simpa using hcne)]
  unfold coerceCell astypeStr
  have hfilter : c.filter (fun ch => !(ch = '%' || ch = ',')) = c.dropLast := by
    conv_lhs => rw [hshape]
    rw [List.filter_append]
    rw [List.filter_eq_self.mpr (fun x hx => digit_survives_clean (hdig x hx))]
    simp
  rw [hfilter, parseNum_digits hne hdig]
  rfl

theorem coRow_some {w : ℕ} {r : List Line}
    (h : coerceStr (r.getD w []) ≠ PyNum.nan) :
    coRow w r = some ((r.map strCellOf).set w
      (cellOfNum (coerceStr (r.getD w [])))) := by
  unfold coRow
  rcases hv : coerceStr (r.getD w []) with q | - | - | -
  · rfl
  · rfl
  · rfl
  · exact absurd hv h

theorem coRow_none {w : ℕ} {r : List Line}
    (h : coerceStr (r.getD w []) = PyNum.nan) : coRow w r = none := by
  unfold coRow
  rw [h]

theorem filterMap_eq_map_of_some {α β : Type} {f : α → Option β} {g : α → β} :
    ∀ l : List α, (∀ x ∈ l, f x = some (g x)) → l.filterMap f = l.map g := by
  intro l
  induction l with
  | nil => intro _; rfl
  | cons x xs ih =>
    intro h
    rw [List.filterMap_cons, h x (by simp), List.map_cons,
      ih (fun y hy => h y (by simp [hy]))]

theorem getD_set_self {α : Type} (d : α) :
    ∀ (l : List α) (i : ℕ) (v : α), i < l.length →
      (l.set i v).getD i d = v := by
  intro l
  induction l with
  | nil => intro i v hi; simp at hi
  | cons x xs ih =>
    intro i v hi
    cases i with
    | zero => rfl
    | succ m =>
      show (x :: xs.set m v).getD (m + 1) d = v
      simpa using ih m v (by simpa using hi)

/-- **C7.** For every well-formed markdown table block (header, dash row,
at least one data row) in which every weight cell is a clean percentage
string of digits followed by `%`, normalization succeeds, keeps exactly the
same number of data rows, and converts the weight column to the
corresponding numbers (`"45%"` becomes `45.0`). -/
theorem c7_clean_percent_table (names : List Line) (rows : List (List Line))
    (wIdx : ℕ) (hok : TableOK names rows wIdx)
    (_hrow1 : 1 ≤ rows.length)
    (hpct : ∀ r ∈ rows, isPercentCell (r.getD wIdx []) = true) :
    ∃ df, parse_portfolio_table (serializeTable true names rows) = some df ∧
      df.rows.length = rows.length ∧
      df.rows.map (fun r => r.getD wIdx Cell.na) =
        rows.map (fun r => Cell.num (pctVal (r.getD wIdx []))) := by
  have hrowsEq : rows.filterMap (coRow wIdx) =
      rows.map (fun r => (r.map strCellOf).set wIdx
        (Cell.num (pctVal (r.getD wIdx [])))) := by
    refine filterMap_eq_map_of_some rows ?_
    intro r hr
    rw [coRow_some (by rw [coerceStr_percent (hpct r hr)]; simp)]
    rw [coerceStr_percent (hpct r hr)]
    rfl
  refine ⟨⟨names.map pyStrip, rows.filterMap (coRow wIdx)⟩,
    parse_serializeTable true names rows wIdx hok, ?_, ?_⟩
  · rw [hrowsEq]
    simp
  · rw [hrowsEq]
    show (rows.map _).map _ = _
    rw [List.map_map]
    refine List.map_congr_left ?_
    intro r hr
    simp only [Function.comp_apply]
    refine getD_set_self Cell.na _ wIdx _ ?_
    obtain ⟨-, -, -, -, -, hw, -, -, -, hrows⟩ := hok
    rw [List.length_map, (hrows r hr).1]
    exact hw

theorem c7_clean_percent_table_witness :
    ∃ df, parse_portfolio_table (serializeTable true
        ["Name".data, "Weight".data]
        [["Apple".data, "45%".data], ["Cash".data, "55%".data]]) = some df ∧
      df.rows.length = 2 ∧
      df.rows.map (fun r => r.getD 1 Cell.na) =
        [Cell.num 45, Cell.num 55] := by
  have h := c7_clean_percent_table ["Name".data, "Weight".data]
    [["Apple".data, "45%".data], ["Cash".data, "55%".data]] 1
    (by refine ⟨?_, ?_, ?_, ?_, ?_, ?_, ?_, ?_, ?_, ?_⟩ <;> decide)
    (by decide) (by decide)
  rcases h with ⟨df, h1, h2, h3⟩
  refine ⟨df, h1, h2, ?_⟩
  rw [h3]
  decide

/-! ### Dropping exactly one failing row -/

theorem filterMap_eraseIdx {f : List Line → Option (List Cell)}
    {g : List Line → List Cell} :
    ∀ (l : List (List Line)) (k : ℕ), k < l.length →
      f (l.getD k []) = none →
      (∀ j, j < l.length → j ≠ k → f (l.getD j []) = some (g (l.getD j []))) →
      l.filterMap f = (l.eraseIdx k).map g := by
  intro l
  induction l with
  | nil => intro k hk _ _; simp at hk
  | cons x xs ih =>
    intro k hk hnone hsome
    cases k with
    | zero =>
      simp only [List.getD_cons_zero] at hnone
      rw [List.filterMap_cons, hnone]
      show xs.filterMap f = xs.map g
      refine filterMap_eq_map_of_some xs ?_
      intro y hy
      rcases List.mem_iff_getElem.mp hy with ⟨j, hj, hje⟩
      have h1 := hsome (j + 1) (by simpa using hj) (by omega)
      simp only [List.getD_cons_succ] at h1
      rw [List.getD_eq_getElem xs [] hj, hje] at h1
      exact h1
    | succ k' =>
      have hx : f x = some (g x) := by
        have h1 := hsome 0 (by simp) (by omega)
        simpa using h1
      rw [List.filterMap_cons, hx]
      show g x :: xs.filterMap f = ((x :: xs).eraseIdx (k' + 1)).map g
      rw [show (x :: xs).eraseIdx (k' + 1) = x :: xs.eraseIdx k' from rfl]
      rw [List.map_cons]
      congr 1
      refine ih k' (by simpa using hk) (by simpa using hnone) ?_
      intro j hj hjk
      have h1 := hsome (j + 1) (by simpa using hj) (by omega)
      simpa using h1

/-- **C5.** For every serialized table block with `N ≥ 2` data rows in which
exactly one data row (the one at index `k`) has a weight cell that fails
numeric coercion while every other row's weight cell parses, normalization
returns exactly `N - 1` rows: the failing row is dropped and the remaining
rows keep their original relative order (the result is the original row list
with index `k` erased). -/
theorem c5_single_bad_row (names : List Line) (rows : List (List Line))
    (wIdx k : ℕ) (hok : TableOK names rows wIdx)
    (_hN : 2 ≤ rows.length) (hk : k < rows.length)
    (hbad : coerceStr ((rows.getD k []).getD wIdx []) = PyNum.nan)
    (hgood : ∀ j, j < rows.length → j ≠ k →
      coerceStr ((rows.getD j []).getD wIdx []) ≠ PyNum.nan) :
    ∃ df, parse_portfolio_table (serializeTable true names rows) = some df ∧
      df.rows.length = rows.length - 1 ∧
      df.rows = (rows.eraseIdx k).map (fun r => (r.map strCellOf).set wIdx
        (cellOfNum (coerceStr (r.getD wIdx [])))) := by
  have heq : rows.filterMap (coRow wIdx) =
      (rows.eraseIdx k).map (fun r => (r.map strCellOf).set wIdx
        (cellOfNum (coerceStr (r.getD wIdx [])))) :=
    filterMap_eraseIdx rows k hk (coRow_none hbad)
      (fun j hj hjk => coRow_some (hgood j hj hjk))
  refine ⟨⟨names.map pyStrip, rows.filterMap (coRow wIdx)⟩,
    parse_serializeTable true names rows wIdx hok, ?_, heq⟩
  rw [heq]
  simp only [List.length_map]
  rw [List.length_eraseIdx]
  simp [hk]

theorem c5_single_bad_row_witness :
    ∃ df, parse_portfolio_table (serializeTable true
        ["Name".data, "Weight".data]
        [["a".data, "10%".data], ["b".data, "bad".data],
          ["c".data, "20%".data]]) = some df ∧
      df.rows.length = 2 ∧
      df.rows = (([["a".data, "10%".data], ["b".data, "bad".data],
          ["c".data, "20%".data]] : List (List Line)).eraseIdx 1).map
        (fun r => (r.map strCellOf).set 1
          (cellOfNum (coerceStr (r.getD 1 [])))) :=
  c5_single_bad_row ["Name".data, "Weight".data]
    [["a".data, "10%".data], ["b".data, "bad".data], ["c".data, "20%".data]]
    1 1
    (by refine ⟨?_, ?_, ?_, ?_, ?_, ?_, ?_, ?_, ?_, ?_⟩ <;> decide)
    (by decide) (by decide) (by decide)
    (by
      intro j hj hjk
      have hj3 : j < 3 := by simpa using hj
      interval_cases j
      · decide
      · exact absurd rfl hjk
      · decide)

/-! ### The failure modes of normalization on arbitrary blocks -/

theorem assignNames_length : ∀ (i : ℕ) (fs : List Line),
    (assignNames i fs).length = fs.length := by
  intro i fs
  induction fs generalizing i with
  | nil => rfl
  | cons f fs2 ih =>
    show (assignNames i (f :: fs2)).length = fs2.length + 1
    simp only [assignNames, List.length_cons]
    rw [ih (i + 1)]

theorem dedupNames_length : ∀ (fs seen : List Line),
    (dedupNames seen fs).length = fs.length := by
  intro fs
  induction fs with
  | nil => intro seen; rfl
  | cons f fs2 ih =>
    intro seen
    show (dedupNames seen (f :: fs2)).length = fs2.length + 1
    simp only [dedupNames, List.length_cons]
    rw [ih]

theorem findWeightIdxAux_some_bound : ∀ (cols : List Line) (i w : ℕ),
    findWeightIdxAux i cols = some w → i ≤ w ∧ w - i < cols.length := by
  intro cols
  induction cols with
  | nil => intro i w h; simp [findWeightIdxAux] at h
  | cons c cs ih =>
    intro i w h
    by_cases hk : hasKeyword c = true
    · simp only [findWeightIdxAux, hk, if_true, Option.some.injEq] at h
      subst h
      simp
    · rw [Bool.not_eq_true] at hk
      simp only [findWeightIdxAux, hk, Bool.false_eq_true, if_false] at h
      have := ih (i + 1) w h
      constructor
      · omega
      · simp only [List.length_cons]
        omega

theorem findWeightIdx_lt {cols : List Line} {w : ℕ}
    (h : findWeightIdx cols = some w) : w < cols.length := by
  have := findWeightIdxAux_some_bound cols 0 w h
  omega

theorem findWeightIdxAux_some_keyword : ∀ (cols : List Line) (i w : ℕ),
    findWeightIdxAux i cols = some w →
    hasKeyword (cols.getD (w - i) []) = true := by
  intro cols
  induction cols with
  | nil => intro i w h; simp [findWeightIdxAux] at h
  | cons c cs ih =>
    intro i w h
    by_cases hk : hasKeyword c = true
    · simp only [findWeightIdxAux, hk, if_true, Option.some.injEq] at h
      subst h
      simpa using hk
    · rw [Bool.not_eq_true] at hk
      simp only [findWeightIdxAux, hk, Bool.false_eq_true, if_false] at h
      have hb := findWeightIdxAux_some_bound cs (i + 1) w h
      have h1 := ih (i + 1) w h
      have h2 : w - i = (w - (i + 1)) + 1 := by omega
      rw [h2, List.getD_cons_succ]
      exact h1

theorem findWeightIdxAux_none_iff : ∀ (cols : List Line) (i : ℕ),
    findWeightIdxAux i cols = none ↔ ∀ c ∈ cols, hasKeyword c = false := by
  intro cols
  induction cols with
  | nil => intro i; simp [findWeightIdxAux]
  | cons c cs ih =>
    intro i
    by_cases hk : hasKeyword c = true
    · simp [findWeightIdxAux, hk]
    · rw [Bool.not_eq_true] at hk
      simp only [findWeightIdxAux, hk, Bool.false_eq_true, if_false]
      rw [ih (i + 1)]
      constructor
      · intro h x hx
        rcases List.mem_cons.mp hx with h1 | h1
        · subst h1; exact hk
        · exact h x h1
      · intro h x hx
        exact h x (by simp [hx])

theorem maskList_map_length : ∀ (l : List Line) (p : Line → Bool)
    (r : List Cell), r.length = l.length →
    (maskList (l.map p) r).length = (l.filter p).length := by
  intro l
  induction l with
  | nil =>
    intro p r hr
    rw [List.length_eq_zero.mp hr]
    rfl
  | cons x xs ih =>
    intro p r hr
    cases r with
    | nil => simp at hr
    | cons y ys =>
      simp only [List.map_cons, List.filter_cons]
      by_cases hp : p x = true
      · rw [hp]
        show (maskList (true :: xs.map p) (y :: ys)).length = _
        simp only [maskList, if_true, List.length_cons]
        rw [ih p ys (by simpa using hr)]
      · rw [Bool.not_eq_true] at hp
        rw [hp]
        show (maskList (false :: xs.map p) (y :: ys)).length = _
        simp only [maskList, Bool.false_eq_true, if_false]
        rw [ih p ys (by simpa using hr)]

theorem padTo_length_of_le {n : ℕ} {r : List Cell} (h : r.length ≤ n) :
    (padTo n r).length = n := by
  unfold padTo
  simp only [List.length_append, List.length_replicate]
  omega

/-- **C6 (amended).** Whenever normalization succeeds, the number of
returned rows is at most the number of data lines of the block (the
non-decorative lines after the header), and every cell of the designated
weight column is a numeric, non-missing, non-NaN value — though it may be an
infinity, as the counterexample shows. -/
theorem c6_amended_invariant (b : Line) (df : Df)
    (h : parse_portfolio_table b = some df) :
    df.rows.length ≤ (cleanOf b).length - 1 ∧
      ∃ w, findWeightIdx (finalColsOf b) = some w ∧
        ∀ r ∈ df.rows, isNumericCell (r.getD w Cell.na) = true := by
  unfold parse_portfolio_table at h
  split at h
  · simp at h
  · rename_i df0 hread
    dsimp only at h
    split at h
    · simp at h
    · rename_i w hw
      split at h
      · simp at h
      · rw [Option.some.injEq] at h
        subst h
        rcases hclean : cleanOf b with - | ⟨hd, rest⟩
        · rw [hclean] at hread; simp [readCsv] at hread
        · rw [hclean] at hread
          simp only [readCsv] at hread
          split at hread
          · simp at hread
          · rename_i hragged
            rw [Bool.not_eq_true] at hragged
            rw [Option.some.injEq] at hread
            subst hread
            have hcolsfin : (dropUnnamed
                ⟨dedupNames [] (assignNames 0 (fieldsOf hd)),
                  (rest.map fieldsOf).map (fun r => padTo
                    (dedupNames [] (assignNames 0 (fieldsOf hd))).length
                    (r.map toCell))⟩ : Df).cols.map pyStrip =
                finalColsOf b := by
              unfold finalColsOf dropUnnamed assignedOf
              rw [hclean]
            refine ⟨?_, w, by rw [← hcolsfin]; exact hw, ?_⟩
            · simp only [applyCoerce, dropUnnamed]
              refine le_trans (List.length_filterMap_le _ _) ?_
              simp
            · intro r hr
              simp only [applyCoerce, dropUnnamed] at hr
              rcases List.mem_filterMap.mp hr with ⟨a, ha, hfa⟩
              rcases List.mem_map.mp ha with ⟨r0, hr0, hr0e⟩
              rcases List.mem_map.mp hr0 with ⟨f0, hf0, hf0e⟩
              rcases List.mem_map.mp hf0 with ⟨l0, hl0, hl0e⟩
              have hf0len : f0.length ≤
                  (dedupNames [] (assignNames 0 (fieldsOf hd))).length := by
                have h1 := List.any_eq_false.mp hragged f0 hf0
                simp only [decide_eq_true_eq] at h1
                omega
              have hr0len : r0.length =
                  (dedupNames [] (assignNames 0 (fieldsOf hd))).length := by
                rw [← hf0e]
                refine padTo_length_of_le ?_
                simpa using hf0len
              have halen : w < a.length := by
                have hwlt := findWeightIdx_lt hw
                simp only [dropUnnamed, List.length_map] at hwlt
                rw [← hr0e, maskList_map_length _ _ _ hr0len]
                simpa using hwlt
              rcases hv : coerceCell (a.getD w Cell.na) with q | - | - | -
              all_goals rw [hv] at hfa
              case nan => simp at hfa
              all_goals (
                rw [Option.some.injEq] at hfa
                rw [← hfa, getD_set_self Cell.na a w _ halen]
                rfl)

theorem c6_amended_invariant_witness :
    (⟨["A".data, "Weight".data],
        [[Cell.str "x ".data, Cell.num 5]]⟩ : Df).rows.length ≤
      (cleanOf ("| A | Weight |\n| x | 5 |").data).length - 1 ∧
      ∃ w, findWeightIdx
          (finalColsOf ("| A | Weight |\n| x | 5 |").data) = some w ∧
        ∀ r ∈ (⟨["A".data, "Weight".data],
            [[Cell.str "x ".data, Cell.num 5]]⟩ : Df).rows,
          isNumericCell (r.getD w Cell.na) = true :=
  c6_amended_invariant ("| A | Weight |\n| x | 5 |").data
    ⟨["A".data, "Weight".data], [[Cell.str "x ".data, Cell.num 5]]⟩
    (by decide)

/-- **C2 (amended).** For blocks whose lines all split into as many
`'|'`-fields as the header line and whose assigned header names (and
surviving trimmed names) are distinct, normalization returns `none` exactly
when no line survives decorative stripping (which subsumes the empty block)
or no surviving trimmed column name contains one of the weight keywords.
In particular, when a weight column exists but zero rows survive numeric
coercion, the function does not return `none` — it returns an empty table
(see the counterexample). -/
theorem c2_amended_none_iff (b : Line)
    (hrect : ∀ l ∈ cleanOf b, nFieldsOf l = nFieldsOf ((cleanOf b).getD 0 []))
    (hnodup1 : (assignedOf b).Nodup)
    (hnodup2 : (finalColsOf b).Nodup) :
    (parse_portfolio_table b = none ↔
      cleanOf b = [] ∨ ∀ c ∈ finalColsOf b, hasKeyword c = false) := by
  rcases hclean : cleanOf b with - | ⟨hd, rest⟩
  · constructor
    · intro _
      exact Or.inl rfl
    · intro _
      unfold parse_portfolio_table
      rw [hclean]
      rfl
  · rw [hclean] at hrect
    have hassigned : assignedOf b = assignNames 0 (fieldsOf hd) := by
      unfold assignedOf
      rw [hclean]
    have hdedup : dedupNames [] (assignNames 0 (fieldsOf hd)) =
        assignNames 0 (fieldsOf hd) :=
      dedupNames_eq_self _ [] (hassigned ▸ hnodup1) (by simp)
    have hragged : ((rest.map fieldsOf).any fun r =>
        decide ((assignNames 0 (fieldsOf hd)).length < r.length)) = false := by
      rw [List.any_eq_false]
      intro f0 hf0
      rcases List.mem_map.mp hf0 with ⟨l0, hl0, hl0e⟩
      have h1 := hrect l0 (by simp [hl0])
      simp only [List.getD_cons_zero] at h1
      simp only [decide_eq_true_eq, not_lt, ← hl0e]
      rw [assignNames_length]
      unfold nFieldsOf at h1
      omega
    have hread : readCsv (cleanOf b) =
        some ⟨assignNames 0 (fieldsOf hd),
          (rest.map fieldsOf).map (fun r =>
            padTo (assignNames 0 (fieldsOf hd)).length (r.map toCell))⟩ := by
      rw [hclean]
      simp only [readCsv, hdedup, hragged, Bool.false_eq_true, if_false]
    have hfinal : finalColsOf b =
        ((assignNames 0 (fieldsOf hd)).filter
          (fun c => !(unnamedHead.isPrefixOf c))).map pyStrip := by
      unfold finalColsOf
      rw [hassigned, hdedup]
    unfold parse_portfolio_table
    rw [hread]
    dsimp only
    simp only [dropUnnamed]
    rcases hwf : findWeightIdx (((assignNames 0 (fieldsOf hd)).filter
        (fun c => !(unnamedHead.isPrefixOf c))).map pyStrip) with - | w
    · dsimp only
      constructor
      · intro _
        refine Or.inr ?_
        rw [hfinal]
        exact (findWeightIdxAux_none_iff _ 0).mp hwf
      · intro _
        rfl
    · dsimp only
      simp only [← hfinal]
      rw [← hfinal] at hwf
      have hdup : ¬ 2 ≤ ((finalColsOf b).filter
          (fun c => c = (finalColsOf b).getD w [])).length := by
        have h1 := filter_eq_length_le_one hnodup2 ((finalColsOf b).getD w [])
        omega
      rw [if_neg hdup]
      constructor
      · intro hcontra
        exact absurd hcontra (by simp)
      · intro hrhs
        rcases hrhs with h1 | h1
        · simp at h1
        · have hkw := findWeightIdxAux_some_keyword (finalColsOf b) 0 w hwf
          simp only [Nat.sub_zero] at hkw
          have hlt := findWeightIdx_lt hwf
          have hmem : (finalColsOf b).getD w [] ∈ finalColsOf b := by
            rw [List.getD_eq_getElem _ _ hlt]
            exact List.getElem_mem hlt
          have h2 := h1 _ hmem
          rw [hkw] at h2
          simp at h2

theorem c2_amended_none_iff_witness :
    (parse_portfolio_table c2Cex = none ↔
      cleanOf c2Cex = [] ∨ ∀ c ∈ finalColsOf c2Cex, hasKeyword c = false) :=
  c2_amended_none_iff c2Cex (by decide) (by decide) (by decide)

/-! ### Idempotence machinery: trimming is stable -/

theorem head?_dropWhile_not {p : Char → Bool} :
    ∀ (l : Line) (c : Char), (l.dropWhile p).head? = some c → p c = false := by
  intro l
  induction l with
  | nil => intro c h; simp at h
  | cons x xs ih =>
    intro c h
    by_cases hp : p x = true
    · rw [List.dropWhile_cons, if_pos hp] at h
      exact ih c h
    · rw [Bool.not_eq_true] at hp
      rw [List.dropWhile_cons, if_neg (by simp [hp])] at h
      simp only [List.head?_cons, Option.some.injEq] at h
      rw [← h]
      exact hp

theorem head?_of_isPrefix {l1 l2 : Line} (h : l1 <+: l2) (hne : l1 ≠ []) :
    l2.head? = l1.head? := by
  rcases h with ⟨t, rfl⟩
  exact head?_append_left hne

theorem dropTrailing_isPrefix (p : Char → Bool) (l : Line) :
    dropTrailing p l <+: l := by
  unfold dropTrailing
  have h1 : l.reverse.dropWhile p <:+ l.reverse := List.dropWhile_suffix p
  have h2 : (l.reverse.dropWhile p).reverse <+: l.reverse.reverse :=
    List.reverse_prefix.mpr h1
  simpa using h2

theorem head?_pyStrip {l : Line} {c : Char}
    (h : (pyStrip l).head? = some c) : isSpaceC c = false := by
  have hne : pyStrip l ≠ [] := by
    intro he
    rw [he] at h
    simp at h
  have hpre : pyStrip l <+: l.dropWhile isSpaceC := by
    unfold pyStrip
    exact dropTrailing_isPrefix _ _
  have heq : (l.dropWhile isSpaceC).head? = (pyStrip l).head? :=
    head?_of_isPrefix hpre hne
  refine head?_dropWhile_not l c ?_
  rw [heq]
  exact h

theorem getLast?_pyStrip {l : Line} {c : Char}
    (h : (pyStrip l).getLast? = some c) : isSpaceC c = false := by
  unfold pyStrip dropTrailing at h
  rw [← List.head?_reverse, List.reverse_reverse] at h
  exact head?_dropWhile_not _ c h

theorem pyStrip_idem (l : Line) : pyStrip (pyStrip l) = pyStrip l := by
  refine pyStrip_eq_self ?_ ?_
  · intro c hc
    exact head?_pyStrip hc
  · intro c hc
    exact getLast?_pyStrip hc

theorem skipInit_pyStrip (l : Line) : skipInit (pyStrip l) = pyStrip l := by
  unfold skipInit
  refine dropWhile_eq_self_head _ ?_
  intro c hc
  have h1 := head?_pyStrip hc
  simp only [isSpaceC, Bool.or_eq_false_iff] at h1
  exact h1.1.1.1.1.1

theorem mem_dropWhile_of_not {p : Char → Bool} :
    ∀ l : Line, ∀ c ∈ l, p c = false → c ∈ l.dropWhile p := by
  intro l
  induction l with
  | nil => intro c hc _; simp at hc
  | cons x xs ih =>
    intro c hc hp
    by_cases hx : p x = true
    · rw [List.dropWhile_cons, if_pos hx]
      rcases List.mem_cons.mp hc with h1 | h1
      · subst h1
        rw [hx] at hp
        simp at hp
      · exact ih c h1 hp
    · rw [Bool.not_eq_true] at hx
      rw [List.dropWhile_cons, if_neg (by simp [hx])]
      exact hc

theorem mem_pyStrip_of_not_space {l : Line} {c : Char} (hc : c ∈ l)
    (hp : isSpaceC c = false) : c ∈ pyStrip l := by
  unfold pyStrip dropTrailing
  have h1 : c ∈ l.dropWhile isSpaceC := mem_dropWhile_of_not l c hc hp
  have h2 : c ∈ (l.dropWhile isSpaceC).reverse := by simpa using h1
  have h3 := mem_dropWhile_of_not _ c h2 hp
  simpa using h3

theorem mem_pyStrip_sub {l : Line} {c : Char} (hc : c ∈ pyStrip l) :
    c ∈ l := by
  unfold pyStrip dropTrailing at hc
  simp only [List.mem_reverse] at hc
  have h1 := (List.dropWhile_sublist isSpaceC).mem hc
  simp only [List.mem_reverse] at h1
  exact (List.dropWhile_sublist isSpaceC).mem h1

theorem mem_skipInit_sub {l : Line} {c : Char} (hc : c ∈ skipInit l) :
    c ∈ l :=
  (List.dropWhile_sublist _).mem hc

/-! ### Round-trips through re-serialization -/

theorem charSafe_of_isDigitC {c : Char} (h : isDigitC c = true) :
    charSafe c = true := by
  by_contra hcs
  rw [Bool.not_eq_true] at hcs
  simp only [charSafe, Bool.not_eq_false', Bool.or_eq_true,
    decide_eq_true_eq] at hcs
  rcases hcs with ((((((((((h1 | h1) | h1) | h1) | h1) | h1) | h1) | h1) |
    h1) | h1) | h1) | h1 <;> (subst h1; exact absurd h (by decide))

theorem coerceStr_digits {ds : Line} (hne : ds ≠ [])
    (hdig : ∀ c ∈ ds, isDigitC c = true) :
    coerceStr ds = PyNum.fin (natOfDigits ds) := by
  have hskip : skipInit ds = ds := by
    unfold skipInit
    refine dropWhile_eq_self_head ds ?_
    intro ch hch
    have hd := hdig ch (List.mem_of_mem_head? hch)
    simp [ne_space_of_isDigitC hd]
  unfold coerceStr strCellOf
  rw [hskip]
  unfold toCell
  rw [if_neg (by simpa using hne)]
  unfold coerceCell astypeStr
  rw [List.filter_eq_self.mpr (fun x hx => digit_survives_clean (hdig x hx))]
  rw [parseNum_digits hne hdig]

theorem coerceStr_natDigs (n : ℕ) :
    coerceStr (natDigs n) = PyNum.fin (n : ℚ) := by
  rw [coerceStr_digits (natDigs_ne_nil n) (isDigitC_natDigs n)]
  rw [natOfDigits_natDigs]

theorem skipInit_idem (l : Line) : skipInit (skipInit l) = skipInit l :=
  dropWhile_dropWhile (fun _ h => h) l

theorem strCell_roundtrip (c : Line) :
    strCellOf (cellToStr (strCellOf c)) = strCellOf c := by
  unfold strCellOf toCell
  by_cases he : (skipInit c).isEmpty = true
  · rw [if_pos he]
    rfl
  · rw [if_neg he]
    show (if (skipInit (skipInit c)).isEmpty = true then Cell.na
      else Cell.str (skipInit (skipInit c))) = _
    rw [skipInit_idem]
    rw [if_neg he]

theorem lineSafe_cellToStr_strCell {c : Line} (h : lineSafe c = true) :
    lineSafe (cellToStr (strCellOf c)) = true := by
  unfold strCellOf toCell
  by_cases he : (skipInit c).isEmpty = true
  · rw [if_pos he]
    rfl
  · rw [if_neg he]
    show lineSafe (skipInit c) = true
    refine List.all_eq_true.mpr ?_
    intro x hx
    exact List.all_eq_true.mp h x (mem_skipInit_sub hx)

theorem mem_set_self {α : Type} : ∀ (l : List α) (i : ℕ) (v : α),
    i < l.length → v ∈ l.set i v := by
  intro l
  induction l with
  | nil => intro i v hi; simp at hi
  | cons x xs ih =>
    intro i v hi
    cases i with
    | zero => simp [List.set]
    | succ m =>
      show v ∈ x :: xs.set m v
      exact List.mem_cons.mpr (Or.inr (ih m v (by simpa using hi)))

theorem isSpaceC_dash : isSpaceC '-' = false := rfl

/-! ### Exact decimal serialization of coerced weights -/

theorem dvd_pow10_self : ∀ d k : ℕ, d ∣ 10 ^ k → d ∣ 10 ^ d := by
  intro d
  induction d using Nat.strong_induction_on with
  | _ d ih =>
    intro k hdk
    rcases Nat.lt_or_ge d 2 with hd2 | hd2
    · interval_cases d
      · have h0 : (10 : ℕ) ^ k ≠ 0 := by positivity
        exact absurd (Nat.eq_zero_of_zero_dvd hdk) h0
      · exact one_dvd _
    · have hpd : d.minFac ∣ d := Nat.minFac_dvd d
      have hprime : d.minFac.Prime := Nat.minFac_prime (by omega)
      have hp10 : d.minFac ∣ 10 := hprime.dvd_of_dvd_pow (hpd.trans hdk)
      have hdp_dvd : d / d.minFac ∣ d := Nat.div_dvd_of_dvd hpd
      have hdp_lt : d / d.minFac < d := Nat.div_lt_self (by omega) hprime.one_lt
      have hih : d / d.minFac ∣ 10 ^ (d / d.minFac) :=
        ih (d / d.minFac) hdp_lt k (hdp_dvd.trans hdk)
      have hcomb : d.minFac * (d / d.minFac) ∣ 10 * 10 ^ (d / d.minFac) :=
        mul_dvd_mul hp10 hih
      rw [Nat.mul_div_cancel' hpd] at hcomb
      refine dvd_trans hcomb ?_
      rw [show (10 : ℕ) * 10 ^ (d / d.minFac) = 10 ^ (d / d.minFac + 1) from by
        rw [pow_succ, Nat.mul_comm]]
      exact Nat.pow_dvd_pow 10 (by omega)

theorem pow10Exp_dvd {d k : ℕ} (h : pow10Exp d = some k) : d ∣ 10 ^ k := by
  have h1 := List.find?_some h
  simpa using h1

theorem pow10Exp_isSome {d j : ℕ} (_hd : 0 < d) (h : d ∣ 10 ^ j) :
    ∃ k, pow10Exp d = some k := by
  rcases hfind : pow10Exp d with _ | k
  · exfalso
    have hall := List.find?_eq_none.mp hfind d (List.mem_range.mpr (by omega))
    exact hall (by simpa using dvd_pow10_self d j h)
  · exact ⟨k, rfl⟩

theorem natOfDigits_replicate_zero : ∀ (z : ℕ) (l : Line),
    natOfDigits (List.replicate z '0' ++ l) = natOfDigits l := by
  intro z
  induction z with
  | zero => intro l; rfl
  | succ n ih =>
    intro l
    have h1 : List.replicate (n + 1) '0' ++ l =
        '0' :: (List.replicate n '0' ++ l) := rfl
    have h2 : natOfDigits ('0' :: (List.replicate n '0' ++ l)) =
        natOfDigits (List.replicate n '0' ++ l) := rfl
    rw [h1, h2, ih l]

theorem natOfDigits_append (a : Line) : ∀ b : Line,
    natOfDigits (a ++ b) = natOfDigits a * 10 ^ b.length + natOfDigits b := by
  intro b
  induction b using List.reverseRecOn with
  | nil => simp [natOfDigits]
  | append_singleton b c ih =>
    rw [← List.append_assoc, natOfDigits_concat, natOfDigits_concat, ih]
    simp only [List.length_append, List.length_cons, List.length_nil]
    ring

theorem takeWhile_append_stop {p : Char → Bool} :
    ∀ (a : Line) (c : Char) (b : Line), (∀ x ∈ a, p x = true) → p c = false →
      (a ++ c :: b).takeWhile p = a := by
  intro a
  induction a with
  | nil =>
    intro c b _ hc
    show (c :: b).takeWhile p = []
    simp [List.takeWhile_cons, hc]
  | cons x xs ih =>
    intro c b ha hc
    have hx : p x = true := ha x (by simp)
    show ((x :: (xs ++ c :: b)).takeWhile p) = x :: xs
    simp only [List.takeWhile_cons, hx, if_true, List.cons.injEq, true_and]
    exact ih c b (fun y hy => ha y (by simp [hy])) hc

theorem dropWhile_append_stop {p : Char → Bool} :
    ∀ (a : Line) (c : Char) (b : Line), (∀ x ∈ a, p x = true) → p c = false →
      (a ++ c :: b).dropWhile p = c :: b := by
  intro a
  induction a with
  | nil =>
    intro c b _ hc
    show (c :: b).dropWhile p = c :: b
    simp [List.dropWhile_cons, hc]
  | cons x xs ih =>
    intro c b ha hc
    have hx : p x = true := ha x (by simp)
    show ((x :: (xs ++ c :: b)).dropWhile p) = c :: b
    simp only [List.dropWhile_cons, hx, if_true]
    exact ih c b (fun y hy => ha y (by simp [hy])) hc

theorem digitsToRat_take_drop (l : Line) (k : ℕ) (hk : k ≤ l.length) :
    digitsToRat (l.take (l.length - k)) (l.drop (l.length - k)) =
      (natOfDigits l : ℚ) / (10 : ℚ) ^ k := by
  have hlen : (l.drop (l.length - k)).length = k := by
    rw [List.length_drop]
    omega
  have happ : natOfDigits l =
      natOfDigits (l.take (l.length - k)) * 10 ^ k +
        natOfDigits (l.drop (l.length - k)) := by
    conv_lhs => rw [← List.take_append_drop (l.length - k) l]
    rw [natOfDigits_append, hlen]
  unfold digitsToRat
  rw [hlen, happ]
  have h10 : ((10 : ℚ) ^ k) ≠ 0 := by positivity
  push_cast
  field_simp

theorem lowerC_digit {c : Char} (hc : isDigitC c = true) : lowerC c = c := by
  unfold lowerC
  have h1 : ('A' ≤ c && c ≤ 'Z') = false := by
    simp only [isDigitC, Bool.and_eq_true, decide_eq_true_eq] at hc
    simp only [Bool.and_eq_false_iff, decide_eq_false_iff_not]
    left
    intro hA
    exact absurd (le_trans hA hc.2) (by decide)
  simp [h1]

theorem lowerList_digit_head_ne {c0 : Char} (hc0 : isDigitC c0 = true)
    (t w : Line) {h0 : Char} (hh : isDigitC h0 = false) :
    lowerList (c0 :: t) ≠ h0 :: w := by
  intro he
  have h1 : lowerList (c0 :: t) = lowerC c0 :: lowerList t := rfl
  rw [h1] at he
  have h2 : lowerC c0 = h0 := (List.cons_eq_cons.mp he).1
  rw [lowerC_digit hc0] at h2
  subst h2
  rw [hc0] at hh
  simp at hh

theorem parseUnsigned_digits {l : Line} (hne : l ≠ [])
    (h : ∀ c ∈ l, isDigitC c = true) (neg : Bool) :
    parseUnsigned l neg = some (.fin (if neg then -(natOfDigits l : ℚ)
      else (natOfDigits l : ℚ))) := by
  rcases List.exists_cons_of_ne_nil hne with ⟨c, rest, rfl⟩
  unfold parseUnsigned
  have hinf : lowerList (c :: rest) ≠ infLower :=
    lowerList_digits_ne h _ ⟨'i', by simp [infLower], by decide⟩
  have hinfy : lowerList (c :: rest) ≠ infinityLower :=
    lowerList_digits_ne h _ ⟨'i', by simp [infinityLower], by decide⟩
  have hnan : lowerList (c :: rest) ≠ nanLower :=
    lowerList_digits_ne h _ ⟨'a', by simp [nanLower], by decide⟩
  simp only [hinf, hinfy, hnan, if_false]
  unfold parseDec
  rw [takeWhile_eq_self_of_all _ h, dropWhile_eq_nil_of_all _ h]
  simp

theorem parseUnsigned_decimal {ip fp : Line} (hipne : ip ≠ [])
    (hipd : ∀ c ∈ ip, isDigitC c = true) (_hfpne : fp ≠ [])
    (hfpd : ∀ c ∈ fp, isDigitC c = true) (neg : Bool) :
    parseUnsigned (ip ++ '.' :: fp) neg =
      some (.fin (if neg then -digitsToRat ip fp else digitsToRat ip fp)) := by
  rcases List.exists_cons_of_ne_nil hipne with ⟨c0, t0, rfl⟩
  have hc0 : isDigitC c0 = true := hipd c0 (by simp)
  have hcons : (c0 :: t0) ++ '.' :: fp = c0 :: (t0 ++ '.' :: fp) := rfl
  unfold parseUnsigned
  have hinf : lowerList ((c0 :: t0) ++ '.' :: fp) ≠ infLower := by
    rw [hcons]
    exact lowerList_digit_head_ne hc0 _ _ (by decide)
  have hinfy : lowerList ((c0 :: t0) ++ '.' :: fp) ≠ infinityLower := by
    rw [hcons]
    exact lowerList_digit_head_ne hc0 _ _ (by decide)
  have hnan : lowerList ((c0 :: t0) ++ '.' :: fp) ≠ nanLower := by
    rw [hcons]
    exact lowerList_digit_head_ne hc0 _ _ (by decide)
  simp only [hinf, hinfy, hnan, if_false]
  unfold parseDec
  rw [takeWhile_append_stop (c0 :: t0) '.' fp hipd (by decide),
    dropWhile_append_stop (c0 :: t0) '.' fp hipd (by decide)]
  simp only [if_pos rfl]
  rw [takeWhile_eq_self_of_all fp hfpd, dropWhile_eq_nil_of_all fp hfpd]
  have hemp : ((c0 :: t0).isEmpty && fp.isEmpty) = false := by
    simp
  rw [hemp]
  rfl

theorem decPad_digits (m k : ℕ) : ∀ c ∈ decPad m k, isDigitC c = true := by
  intro c hc
  unfold decPad at hc
  rcases List.mem_append.mp hc with h | h
  · rw [List.eq_of_mem_replicate h]
    decide
  · exact isDigitC_natDigs m c h

theorem decPad_length_lt (m k : ℕ) : k < (decPad m k).length := by
  unfold decPad
  rw [List.length_append, List.length_replicate]
  have h1 : 0 < (natDigs m).length := List.length_pos.mpr (natDigs_ne_nil m)
  omega

theorem natOfDigits_decPad (m k : ℕ) : natOfDigits (decPad m k) = m := by
  unfold decPad
  rw [natOfDigits_replicate_zero, natOfDigits_natDigs]

theorem decSplit_take_ne_nil (m k : ℕ) (hk : 0 < k) :
    (decPad m k).take ((decPad m k).length - k) ≠ [] := by
  intro he
  have h1 : ((decPad m k).take ((decPad m k).length - k)).length = 0 := by
    rw [he]
    rfl
  rw [List.length_take] at h1
  have h2 := decPad_length_lt m k
  omega

theorem decSplit_drop_ne_nil (m k : ℕ) (hk : 0 < k) :
    (decPad m k).drop ((decPad m k).length - k) ≠ [] := by
  intro he
  have h1 : ((decPad m k).drop ((decPad m k).length - k)).length = 0 := by
    rw [he]
    rfl
  rw [List.length_drop] at h1
  have h2 := decPad_length_lt m k
  omega

theorem decSplit_head_digit (m k : ℕ) (hk : 0 < k) :
    ∀ c, (decSplit m k).head? = some c → isDigitC c = true := by
  intro c hc
  unfold decSplit at hc
  rw [head?_append_left (decSplit_take_ne_nil m k hk)] at hc
  exact decPad_digits m k c (List.take_subset _ _ (List.mem_of_mem_head? hc))

theorem decSplit_last_digit (m k : ℕ) (hk : 0 < k) :
    ∀ c, (decSplit m k).getLast? = some c → isDigitC c = true := by
  intro c hc
  unfold decSplit at hc
  rw [getLast?_append_right (by simp),
    show ('.' :: (decPad m k).drop ((decPad m k).length - k)) =
      ['.'] ++ (decPad m k).drop ((decPad m k).length - k) from rfl,
    getLast?_append_right (decSplit_drop_ne_nil m k hk)] at hc
  exact decPad_digits m k c (List.drop_subset _ _ (getLast?_mem hc))

theorem parseUnsigned_decSplit (m k : ℕ) (hk : 0 < k) (neg : Bool) :
    parseUnsigned (decSplit m k) neg =
      some (.fin (if neg then -((m : ℚ) / (10 : ℚ) ^ k)
        else (m : ℚ) / (10 : ℚ) ^ k)) := by
  have hipd : ∀ c ∈ (decPad m k).take ((decPad m k).length - k),
      isDigitC c = true :=
    fun c hc => decPad_digits m k c (List.take_subset _ _ hc)
  have hfpd : ∀ c ∈ (decPad m k).drop ((decPad m k).length - k),
      isDigitC c = true :=
    fun c hc => decPad_digits m k c (List.drop_subset _ _ hc)
  have hval : digitsToRat ((decPad m k).take ((decPad m k).length - k))
      ((decPad m k).drop ((decPad m k).length - k)) =
      (m : ℚ) / (10 : ℚ) ^ k := by
    rw [digitsToRat_take_drop (decPad m k) k (le_of_lt (decPad_length_lt m k)),
      natOfDigits_decPad]
  unfold decSplit
  rw [parseUnsigned_decimal (decSplit_take_ne_nil m k hk) hipd
    (decSplit_drop_ne_nil m k hk) hfpd neg, hval]

theorem cast_weight_num {q : ℚ} {k : ℕ} (hnn : 0 ≤ q.num)
    (hdvd : (q.den : ℕ) ∣ 10 ^ k) :
    ((q.num.toNat * (10 ^ k / q.den) : ℕ) : ℚ) = q * (10 : ℚ) ^ k := by
  have hden : ((q.den : ℕ) : ℚ) ≠ 0 := Nat.cast_ne_zero.mpr q.den_nz
  have h1 : ((q.num.toNat : ℕ) : ℚ) = ((q.num : ℤ) : ℚ) := by
    exact_mod_cast Int.toNat_of_nonneg hnn
  have h2 : ((10 ^ k / q.den : ℕ) : ℚ) = (10 : ℚ) ^ k / ((q.den : ℕ) : ℚ) := by
    rw [Nat.cast_div hdvd hden]
    push_cast
    ring
  rw [Nat.cast_mul, h1, h2,
    show ((q.num : ℤ) : ℚ) * ((10 : ℚ) ^ k / ((q.den : ℕ) : ℚ)) =
      (((q.num : ℤ) : ℚ) / ((q.den : ℕ) : ℚ)) * (10 : ℚ) ^ k from by ring,
    Rat.num_div_den]

theorem parseUnsigned_decReprNN (q : ℚ) (hnn : 0 ≤ q.num) {k : ℕ}
    (hfd : pow10Exp q.den = some k) (neg : Bool) :
    parseUnsigned (decReprNN q) neg =
      some (.fin (if neg then -q else q)) := by
  have hdvd : (q.den : ℕ) ∣ 10 ^ k := pow10Exp_dvd hfd
  unfold decReprNN
  rw [hfd]
  simp only [Option.getD_some]
  by_cases hk : k = 0
  · subst hk
    rw [if_pos rfl]
    rw [parseUnsigned_digits (natDigs_ne_nil _) (isDigitC_natDigs _) neg]
    have hden1 : q.den = 1 := Nat.dvd_one.mp (by simpa using hdvd)
    have hq : ((natOfDigits (natDigs q.num.toNat) : ℕ) : ℚ) = q := by
      rw [natOfDigits_natDigs]
      have h1 : ((q.num.toNat : ℕ) : ℚ) = ((q.num : ℤ) : ℚ) := by
        exact_mod_cast Int.toNat_of_nonneg hnn
      have h2 := Rat.num_div_den q
      rw [hden1] at h2
      simp only [Nat.cast_one, div_one] at h2
      rw [h1, h2]
    rw [hq]
  · rw [if_neg hk]
    rw [parseUnsigned_decSplit _ k (Nat.pos_of_ne_zero hk) neg]
    have hval : ((q.num.toNat * (10 ^ k / q.den) : ℕ) : ℚ) / (10 : ℚ) ^ k
        = q := by
      rw [cast_weight_num hnn hdvd]
      have h10 : ((10 : ℚ) ^ k) ≠ 0 := by positivity
      field_simp
    rw [hval]

theorem decReprNN_ne_nil (q : ℚ) : decReprNN q ≠ [] := by
  unfold decReprNN
  split
  · exact natDigs_ne_nil _
  · unfold decSplit
    simp

theorem decReprNN_head_digit (q : ℚ) :
    ∀ c, (decReprNN q).head? = some c → isDigitC c = true := by
  intro c hc
  unfold decReprNN at hc
  split at hc
  · exact isDigitC_natDigs _ c (List.mem_of_mem_head? hc)
  · rename_i hk
    exact decSplit_head_digit _ _ (Nat.pos_of_ne_zero hk) c hc

theorem decReprNN_last_digit (q : ℚ) :
    ∀ c, (decReprNN q).getLast? = some c → isDigitC c = true := by
  intro c hc
  unfold decReprNN at hc
  split at hc
  · exact isDigitC_natDigs _ c (getLast?_mem hc)
  · rename_i hk
    exact decSplit_last_digit _ _ (Nat.pos_of_ne_zero hk) c hc

theorem pyStrip_decReprNN (q : ℚ) : pyStrip (decReprNN q) = decReprNN q :=
  pyStrip_eq_self
    (fun c hc => isSpaceC_eq_false_of_isDigitC (decReprNN_head_digit q c hc))
    (fun c hc => isSpaceC_eq_false_of_isDigitC (decReprNN_last_digit q c hc))

theorem decReprNN_cons (q : ℚ) :
    ∃ c t, decReprNN q = c :: t ∧ isDigitC c = true := by
  rcases hcons : decReprNN q with _ | ⟨c, t⟩
  · exact absurd hcons (decReprNN_ne_nil q)
  · exact ⟨c, t, rfl, decReprNN_head_digit q c (by rw [hcons]; rfl)⟩

theorem parseNum_decRepr (q : ℚ) (hsm : Smooth q) :
    parseNum (decRepr q) = some (PyNum.fin q) := by
  obtain ⟨j, hj⟩ := hsm
  unfold decRepr
  by_cases hneg : q.num < 0
  · rw [if_pos hneg]
    have hnn : 0 ≤ (-q).num := by rw [Rat.neg_num]; omega
    have hj2 : ((-q).den : ℕ) ∣ 10 ^ j := by rw [Rat.neg_den]; exact hj
    obtain ⟨k, hfd⟩ := pow10Exp_isSome (-q).den_pos hj2
    unfold parseNum
    have hstrip : pyStrip ('-' :: decReprNN (-q)) = '-' :: decReprNN (-q) := by
      refine pyStrip_eq_self ?_ ?_
      · intro c hc
        have h1 : '-' = c := Option.some.inj hc
        rw [← h1]
        decide
      · intro c hc
        rw [show ('-' :: decReprNN (-q)) = ['-'] ++ decReprNN (-q) from rfl,
          getLast?_append_right (decReprNN_ne_nil (-q))] at hc
        exact isSpaceC_eq_false_of_isDigitC (decReprNN_last_digit (-q) c hc)
    rw [hstrip]
    simp only [if_neg (by decide : ¬(('-' : Char) = '+')), if_pos rfl]
    rw [parseUnsigned_decReprNN (-q) hnn hfd true]
    simp
  · rw [if_neg hneg]
    have hnn : 0 ≤ q.num := by omega
    obtain ⟨k, hfd⟩ := pow10Exp_isSome q.den_pos hj
    unfold parseNum
    rw [pyStrip_decReprNN q]
    obtain ⟨c, t, hct, hc⟩ := decReprNN_cons q
    rw [hct]
    have hplus : (c = '+') = False :=
      eq_false (fun he => by rw [he] at hc; exact absurd hc (by decide))
    have hminus : (c = '-') = False :=
      eq_false (fun he => by rw [he] at hc; exact absurd hc (by decide))
    simp only [hplus, hminus, if_false]
    rw [← hct]
    rw [parseUnsigned_decReprNN q hnn hfd false]
    simp

theorem decRepr_ne_nil (q : ℚ) : decRepr q ≠ [] := by
  unfold decRepr
  split
  · simp
  · exact decReprNN_ne_nil q

theorem decRepr_head_not_space (q : ℚ) :
    ∀ c, (decRepr q).head? = some c → isSpaceC c = false := by
  intro c hc
  unfold decRepr at hc
  split at hc
  · have h1 : '-' = c := Option.some.inj hc
    rw [← h1]
    decide
  · exact isSpaceC_eq_false_of_isDigitC (decReprNN_head_digit q c hc)

theorem decRepr_chars (q : ℚ) :
    ∀ c ∈ decRepr q, isDigitC c = true ∨ c = '.' ∨ c = '-' := by
  have hNN : ∀ p : ℚ, ∀ c ∈ decReprNN p, isDigitC c = true ∨ c = '.' := by
    intro p c hc
    unfold decReprNN at hc
    split at hc
    · exact Or.inl (isDigitC_natDigs _ c hc)
    · unfold decSplit at hc
      rcases List.mem_append.mp hc with h | h
      · exact Or.inl (decPad_digits _ _ c (List.take_subset _ _ h))
      · rcases List.mem_cons.mp h with h | h
        · exact Or.inr h
        · exact Or.inl (decPad_digits _ _ c (List.drop_subset _ _ h))
  intro c hc
  unfold decRepr at hc
  split at hc
  · rcases List.mem_cons.mp hc with h | h
    · exact Or.inr (Or.inr h)
    · rcases hNN (-q) c h with h1 | h1
      · exact Or.inl h1
      · exact Or.inr (Or.inl h1)
  · rcases hNN q c hc with h1 | h1
    · exact Or.inl h1
    · exact Or.inr (Or.inl h1)

theorem lineSafe_decRepr (q : ℚ) : lineSafe (decRepr q) = true := by
  refine List.all_eq_true.mpr ?_
  intro c hc
  rcases decRepr_chars q c hc with h | h | h
  · exact charSafe_of_isDigitC h
  · rw [h]; decide
  · rw [h]; decide

theorem decRepr_has_digit (q : ℚ) : ∃ c ∈ decRepr q, isDigitC c = true := by
  have hNN : ∀ p : ℚ, ∃ c ∈ decReprNN p, isDigitC c = true := by
    intro p
    obtain ⟨c, t, hct, hc⟩ := decReprNN_cons p
    exact ⟨c, by rw [hct]; simp, hc⟩
  unfold decRepr
  split
  · obtain ⟨c, hc1, hc2⟩ := hNN (-q)
    exact ⟨c, List.mem_cons_of_mem _ hc1, hc2⟩
  · exact hNN q

theorem coerceStr_decRepr (q : ℚ) (hsm : Smooth q) :
    coerceStr (decRepr q) = PyNum.fin q := by
  have hskip : skipInit (decRepr q) = decRepr q := by
    unfold skipInit
    refine dropWhile_eq_self_head _ ?_
    intro c hc
    have hcs := decRepr_head_not_space q c hc
    have h1 : (c = ' ') = False :=
      eq_false (fun he => by rw [he] at hcs; exact absurd hcs (by decide))
    simp [h1]
  unfold coerceStr strCellOf
  rw [hskip]
  unfold toCell
  rw [if_neg (by simpa using decRepr_ne_nil q)]
  unfold coerceCell astypeStr
  have hfil : (decRepr q).filter (fun ch => !(ch = '%' || ch = ',')) =
      decRepr q := by
    refine List.filter_eq_self.mpr ?_
    intro x hx
    rcases decRepr_chars q x hx with h | h | h
    · exact digit_survives_clean h
    · rw [h]; decide
    · rw [h]; decide
  rw [hfil, parseNum_decRepr q hsm]

/-! ### Every coerced finite weight has a power-of-ten denominator -/

theorem den_dvd_of_eq_div (q : ℚ) (a : ℤ) (b : ℕ)
    (h : q = (a : ℚ) / ((b : ℕ) : ℚ)) : (q.den : ℕ) ∣ b := by
  have h2 : (((Rat.divInt a (b : ℤ)).den : ℕ) : ℤ) ∣ ((b : ℕ) : ℤ) :=
    Rat.den_dvd a (b : ℤ)
  rw [Rat.divInt_eq_div] at h2
  have h3 : (((b : ℕ) : ℤ) : ℚ) = ((b : ℕ) : ℚ) := by push_cast; ring
  rw [h3, ← h] at h2
  exact_mod_cast h2

theorem smooth_natCast (n : ℕ) : Smooth ((n : ℕ) : ℚ) :=
  ⟨0, by rw [Rat.den_natCast]; simp⟩

theorem smooth_neg {q : ℚ} (h : Smooth q) : Smooth (-q) := by
  obtain ⟨j, hj⟩ := h
  exact ⟨j, by rw [Rat.neg_den]; exact hj⟩

theorem smooth_digitsToRat (ip fp : Line) : Smooth (digitsToRat ip fp) := by
  refine ⟨fp.length, ?_⟩
  refine den_dvd_of_eq_div _
    ((natOfDigits ip * 10 ^ fp.length + natOfDigits fp : ℕ) : ℤ)
    (10 ^ fp.length) ?_
  unfold digitsToRat
  have h10 : ((10 : ℚ) ^ fp.length) ≠ 0 := by positivity
  push_cast
  field_simp

theorem smooth_mul_nat {q : ℚ} (n : ℕ) (h : Smooth q) :
    Smooth (q * (n : ℚ)) := by
  obtain ⟨j, hj⟩ := h
  refine ⟨j, dvd_trans ?_ hj⟩
  refine den_dvd_of_eq_div _ (q.num * (n : ℤ)) q.den ?_
  push_cast
  rw [show (q.num : ℚ) * (n : ℚ) / (q.den : ℚ) =
    ((q.num : ℚ) / (q.den : ℚ)) * (n : ℚ) from by ring, Rat.num_div_den]

theorem smooth_mul_pow {q : ℚ} (k : ℕ) (h : Smooth q) :
    Smooth (q * (10 : ℚ) ^ k) := by
  have h1 : ((10 : ℚ) ^ k) = (((10 ^ k : ℕ) : ℕ) : ℚ) := by push_cast; ring
  rw [h1]
  exact smooth_mul_nat _ h

theorem smooth_div_pow {q : ℚ} (k : ℕ) (h : Smooth q) :
    Smooth (q / (10 : ℚ) ^ k) := by
  obtain ⟨j, hj⟩ := h
  refine ⟨j + k, ?_⟩
  have hdvd : ((q / (10 : ℚ) ^ k).den : ℕ) ∣ q.den * 10 ^ k := by
    refine den_dvd_of_eq_div _ q.num (q.den * 10 ^ k) ?_
    push_cast
    rw [show (q.num : ℚ) / ((q.den : ℚ) * (10 : ℚ) ^ k) =
      ((q.num : ℚ) / (q.den : ℚ)) / (10 : ℚ) ^ k from by rw [div_div],
      Rat.num_div_den]
  refine dvd_trans hdvd ?_
  rw [pow_add]
  exact mul_dvd_mul hj dvd_rfl

theorem expDigits_smooth {r : Line} {base : ℚ} {ne : Bool} {q : ℚ}
    (hb : Smooth base) (h : expDigits r base ne = some q) : Smooth q := by
  unfold expDigits at h
  split at h
  · exact absurd h (by simp)
  · rw [Option.some.injEq] at h
    rw [← h]
    split
    · exact smooth_div_pow _ hb
    · exact smooth_mul_pow _ hb

theorem parseExp_smooth {r : Line} {base : ℚ} {q : ℚ}
    (hb : Smooth base) (h : parseExp r base = some q) : Smooth q := by
  unfold parseExp at h
  split at h
  · exact absurd h (by simp)
  · split at h
    · exact expDigits_smooth hb h
    · split at h
      · exact expDigits_smooth hb h
      · exact expDigits_smooth hb h

theorem expTail_smooth {r : Line} {base : ℚ} {q : ℚ}
    (hb : Smooth base) (h : expTail r base = some q) : Smooth q := by
  unfold expTail at h
  split at h
  · rw [Option.some.injEq] at h
    rw [← h]
    exact hb
  · split at h
    · exact parseExp_smooth hb h
    · exact absurd h (by simp)

theorem parseDec_smooth {t : Line} {q : ℚ} (h : parseDec t = some q) :
    Smooth q := by
  unfold parseDec at h
  dsimp only at h
  split at h
  · split at h
    · exact absurd h (by simp)
    · rw [Option.some.injEq] at h
      rw [← h]
      exact smooth_natCast _
  · split at h
    · split at h
      · exact absurd h (by simp)
      · exact expTail_smooth (smooth_digitsToRat _ _) h
    · split at h
      · split at h
        · exact absurd h (by simp)
        · exact parseExp_smooth (smooth_natCast _) h
      · exact absurd h (by simp)

theorem parseUnsigned_fin_smooth {t : Line} {neg : Bool} {q : ℚ}
    (h : parseUnsigned t neg = some (PyNum.fin q)) : Smooth q := by
  unfold parseUnsigned at h
  split at h
  · rw [Option.some.injEq] at h
    split at h <;> simp at h
  · split at h
    · simp at h
    · rcases hmap : parseDec t with _ | q0
      · rw [hmap] at h
        simp at h
      · rw [hmap] at h
        simp only [Option.map_some', Option.some.injEq] at h
        have hq : (if neg then -q0 else q0) = q := by
          rw [PyNum.fin.injEq] at h
          exact h
        rw [← hq]
        split
        · exact smooth_neg (parseDec_smooth hmap)
        · exact parseDec_smooth hmap

theorem parseNum_fin_smooth {s : Line} {q : ℚ}
    (h : parseNum s = some (PyNum.fin q)) : Smooth q := by
  unfold parseNum at h
  split at h
  · exact absurd h (by simp)
  · split at h
    · exact parseUnsigned_fin_smooth h
    · split at h
      · exact parseUnsigned_fin_smooth h
      · exact parseUnsigned_fin_smooth h

theorem coerceStr_fin_smooth {c : Line} {q : ℚ}
    (h : coerceStr c = PyNum.fin q) : Smooth q := by
  unfold coerceStr coerceCell at h
  split at h
  · simp at h
  · rename_i v heq
    rw [h] at heq
    exact parseNum_fin_smooth heq

/-! ### Round trip of the re-serialized cells -/

theorem coerceStr_infLower : coerceStr infLower = PyNum.pinf := by decide

theorem coerceStr_neg_infLower :
    coerceStr ('-' :: infLower) = PyNum.ninf := by decide

/-- A non-missing coerced weight survives serialization and re-coercion
unchanged: the finite case is the exact decimal round trip, the infinite
cases re-parse the `inf` literals. -/
theorem coerceStr_cellToStr_cellOfNum {v : PyNum}
    (hv : ∃ c : Line, coerceStr c = v) (hne : v ≠ PyNum.nan) :
    coerceStr (cellToStr (cellOfNum v)) = v := by
  rcases v with q | - | - | -
  · obtain ⟨c, hc⟩ := hv
    exact coerceStr_decRepr q (coerceStr_fin_smooth hc)
  · exact coerceStr_infLower
  · exact coerceStr_neg_infLower
  · exact absurd rfl hne

theorem coRow_inv {w : ℕ} {r : List Line} {r2 : List Cell}
    (h : coRow w r = some r2) :
    ∃ v, coerceStr (r.getD w []) = v ∧ v ≠ PyNum.nan ∧
      r2 = (r.map strCellOf).set w (cellOfNum v) := by
  unfold coRow at h
  rcases hv : coerceStr (r.getD w []) with q | - | - | - <;> rw [hv] at h
  · rw [Option.some.injEq] at h
    exact ⟨.fin q, rfl, by simp, h.symm⟩
  · rw [Option.some.injEq] at h
    exact ⟨.pinf, rfl, by simp, h.symm⟩
  · rw [Option.some.injEq] at h
    exact ⟨.ninf, rfl, by simp, h.symm⟩
  · simp at h

/-- The stripped header and the re-serialized surviving rows of a
successfully normalized table again form a well-formed table. -/
theorem tableOK_filterMap (names : List Line) (rows : List (List Line))
    (wIdx : ℕ) (hok : TableOK names rows wIdx) :
    TableOK (names.map pyStrip)
      ((rows.filterMap (coRow wIdx)).map (fun r => r.map cellToStr)) wIdx := by
  obtain ⟨hsafe, hne', hcleanN, hdis1, hdis2, hw, hkw, hkwlt, hcontent,
    hrows⟩ := hok
  have hmapskip : (names.map pyStrip).map skipInit = names.map pyStrip := by
    rw [List.map_map]
    refine List.map_congr_left ?_
    intro nm _
    exact skipInit_pyStrip nm
  have hmapstrip : (names.map pyStrip).map pyStrip = names.map pyStrip := by
    rw [List.map_map]
    refine List.map_congr_left ?_
    intro nm _
    exact pyStrip_idem nm
  refine ⟨?_, ?_, ?_, ?_, ?_, ?_, ?_, ?_, ?_, ?_⟩
  · intro nm hnm
    rcases List.mem_map.mp hnm with ⟨nm0, hnm0, rfl⟩
    refine List.all_eq_true.mpr ?_
    intro c hc
    exact List.all_eq_true.mp (hsafe nm0 hnm0) c (mem_pyStrip_sub hc)
  · intro nm hnm
    rcases List.mem_map.mp hnm with ⟨nm0, hnm0, rfl⟩
    rw [pyStrip_idem]
    exact hne' nm0 hnm0
  · intro nm hnm
    rcases List.mem_map.mp hnm with ⟨nm0, hnm0, rfl⟩
    have h1 := hcleanN nm0 hnm0
    simp only [unnamedClean, Bool.and_eq_true, Bool.not_eq_true'] at h1 ⊢
    rw [skipInit_pyStrip, pyStrip_idem]
    exact ⟨h1.2, h1.2⟩
  · rw [hmapskip]
    exact hdis2
  · rw [hmapstrip]
    exact hdis2
  · simpa using hw
  · rw [getD_map_line rfl names wIdx, pyStrip_idem]
    exact hkw
  · intro j hj
    rw [getD_map_line rfl names j, pyStrip_idem]
    exact hkwlt j hj
  · rcases List.any_eq_true.mp hcontent with ⟨x, hx, hxa⟩
    rcases List.any_eq_true.mp hxa with ⟨ch, hch, hchp⟩
    refine List.any_eq_true.mpr ⟨pyStrip x, List.mem_map.mpr ⟨x, hx, rfl⟩, ?_⟩
    refine List.any_eq_true.mpr ⟨ch, ?_, hchp⟩
    refine mem_pyStrip_of_not_space hch ?_
    simp only [Bool.not_eq_true', Bool.or_eq_false_iff] at hchp
    exact hchp.2
  · intro r3 hr3
    rcases List.mem_map.mp hr3 with ⟨r2, hr2, rfl⟩
    rcases List.mem_filterMap.mp hr2 with ⟨r, hr, hcr⟩
    rcases coRow_inv hcr with ⟨v, hv, hvne, rfl⟩
    obtain ⟨hrlen, hrsafe, -⟩ := hrows r hr
    have hwr : wIdx < (r.map strCellOf).length := by
      rw [List.length_map, hrlen]
      exact hw
    refine ⟨?_, ?_, ?_⟩
    · simp only [List.length_map, List.length_set]
      rw [hrlen]
    · intro c hc
      rcases List.mem_map.mp hc with ⟨cell, hcell, rfl⟩
      rcases List.mem_or_eq_of_mem_set hcell with h1 | h1
      · rcases List.mem_map.mp h1 with ⟨c0, hc0, rfl⟩
        exact lineSafe_cellToStr_strCell (hrsafe c0 hc0)
      · subst h1
        rcases v with q | - | - | -
        · exact lineSafe_decRepr q
        · decide
        · decide
        · exact absurd rfl hvne
    · refine List.any_eq_true.mpr ⟨cellToStr (cellOfNum v),
        List.mem_map.mpr ⟨cellOfNum v, mem_set_self _ wIdx _ hwr, rfl⟩, ?_⟩
      rcases v with q | - | - | -
      · obtain ⟨d, hd1, hd2⟩ := decRepr_has_digit q
        refine List.any_eq_true.mpr ⟨d, hd1, ?_⟩
        have h1 : d ≠ '-' := fun he => absurd (he ▸ hd2) (by decide)
        have h2 := isSpaceC_eq_false_of_isDigitC hd2
        simp [h1, h2]
      · decide
      · decide
      · exact absurd rfl hvne

/-- **C8.** Idempotence on the serialized family: normalizing a well-formed
serialized table always succeeds, and re-serializing the resulting table as
a pipe-delimited header row plus data rows (no dash row) and normalizing
again returns exactly the same table — same columns, same rows, same weight
values, with no restriction on the shape of the weight cells. -/
theorem c8_idempotent (names : List Line) (rows : List (List Line))
    (wIdx : ℕ) (hok : TableOK names rows wIdx) :
    ∃ df, parse_portfolio_table (serializeTable true names rows) = some df ∧
      parse_portfolio_table (reserializeDf df) = some df := by
  refine ⟨⟨names.map pyStrip, rows.filterMap (coRow wIdx)⟩,
    parse_serializeTable true names rows wIdx hok, ?_⟩
  have hser : reserializeDf ⟨names.map pyStrip, rows.filterMap (coRow wIdx)⟩ =
      serializeTable false (names.map pyStrip)
        ((rows.filterMap (coRow wIdx)).map (fun r => r.map cellToStr)) := by
    unfold reserializeDf serializeTable
    simp only [List.map_map, List.nil_append]
    refine congrArg joinLines
      (congrArg (fun t => mkLine (names.map pyStrip) :: t) ?_)
    refine List.map_congr_left ?_
    intro r _
    rfl
  rw [hser]
  rw [parse_serializeTable false (names.map pyStrip) _ wIdx
    (tableOK_filterMap names rows wIdx hok)]
  have hcols : (names.map pyStrip).map pyStrip = names.map pyStrip := by
    rw [List.map_map]
    refine List.map_congr_left ?_
    intro nm _
    exact pyStrip_idem nm
  have hrows2 : ((rows.filterMap (coRow wIdx)).map
      (fun r => r.map cellToStr)).filterMap (coRow wIdx) =
      rows.filterMap (coRow wIdx) := by
    rw [List.filterMap_map]
    have hpoint : ∀ r2 ∈ rows.filterMap (coRow wIdx),
        (coRow wIdx ∘ (fun r => r.map cellToStr)) r2 = some r2 := by
      intro r2 hr2
      rcases List.mem_filterMap.mp hr2 with ⟨r, hr, hcr⟩
      rcases coRow_inv hcr with ⟨v, hv, hvne, rfl⟩
      have hwr : wIdx < r.length := by
        obtain ⟨-, -, -, -, -, hw, -, -, -, hrows⟩ := hok
        rw [(hrows r hr).1]
        exact hw
      show coRow wIdx (((r.map strCellOf).set wIdx
        (cellOfNum v)).map cellToStr) = _
      rw [List.map_set, List.map_map]
      have hlen3 : wIdx < (r.map (cellToStr ∘ strCellOf)).length := by
        rw [List.length_map]
        exact hwr
      have hget : ((r.map (cellToStr ∘ strCellOf)).set wIdx
          (cellToStr (cellOfNum v))).getD wIdx [] =
          cellToStr (cellOfNum v) := getD_set_self [] _ wIdx _ hlen3
      have hco : coerceStr (((r.map (cellToStr ∘ strCellOf)).set wIdx
          (cellToStr (cellOfNum v))).getD wIdx []) = v := by
        rw [hget]
        exact coerceStr_cellToStr_cellOfNum ⟨_, hv⟩ hvne
      rw [coRow_some (by rw [hco]; exact hvne)]
      rw [hco]
      rw [List.map_set, List.set_set, List.map_map]
      have hmaps : r.map (strCellOf ∘ (cellToStr ∘ strCellOf)) =
          r.map strCellOf := by
        refine List.map_congr_left ?_
        intro c _
        exact strCell_roundtrip c
      rw [hmaps]
    rw [filterMap_eq_map_of_some (rows.filterMap (coRow wIdx)) hpoint]
    exact List.map_id _
  rw [hcols, hrows2]

theorem c8_idempotent_witness :
    ∃ df, parse_portfolio_table (serializeTable true
        ["Name".data, "Weight".data]
        [["Apple".data, "4.5".data], ["Cash".data, "55%".data]]) = some df ∧
      parse_portfolio_table (reserializeDf df) = some df :=
  c8_idempotent ["Name".data, "Weight".data]
    [["Apple".data, "4.5".data], ["Cash".data, "55%".data]] 1
    (by refine ⟨?_, ?_, ?_, ?_, ?_, ?_, ?_, ?_, ?_, ?_⟩ <;> decide)

end Capstone
